import Mathlib

set_option maxRecDepth 16384

/-!
Verification of the two core source files of the repository:

* src/sync/queue/spsc_seg_queue.rs  — an unbounded linked-segment FIFO queue
  used in single-producer / single-consumer mode.
* src/io/sys/unix/net/unix_listener_accept.rs — the coroutine accept driver
  for Unix-domain listeners.

The queue is embedded as a purely functional state machine.  The executions
considered are the sequential ones (one completed operation at a time, which
is what the claims about reachable / quiescent states quantify over):

* Raw block pointers are modeled as natural-number identifiers; the heap of
  live blocks is an association list in allocation order, with a `fresh`
  counter supplying the next identifier.  A null pointer is `Option.none`.
* Machine-word (usize) indices are modeled as unbounded naturals: indices
  grow by at most 4 per operation, so a 64-bit counter cannot wrap in any
  feasible execution; each wrapping_add of the source is therefore a plain
  addition here, and the wrapping_sub in len occurs only where the minuend
  provably dominates.
* The spin loops of the source (wait_write, wait_next, the null-block retry
  in pop) cannot make progress in a sequential execution unless their
  condition already holds; operations containing them return `Option.none`
  ("stuck") when the condition fails.  The proofs show reachable states are
  never stuck.
* Reads of uninitialized memory (assume_init / drop_in_place on an unwritten
  slot, dereferencing an unallocated block id) are likewise modeled as stuck.
-/

namespace SpscSegQueue

/-- Bit set in a slot's state once a value has been written (source line 14). -/
def WRITE : Nat := 1

/-- Each block covers one lap of indices (source line 17). -/
def LAP : Nat := 32

/-- The maximum number of values a block can hold (source line 19). -/
def BLOCK_CAP : Nat := LAP - 1

/-- How many lower bits of an index are reserved for metadata (source line 21). -/
def SHIFT : Nat := 1

/-- Low index bit indicating that the block is not the last one (source line 23). -/
def HAS_NEXT : Nat := 1

/-- A slot in a block: an UnsafeCell of MaybeUninit value (none = uninitialized)
plus the atomic state word. -/
structure Slot (T : Type) where
  value : Option T
  state : Nat
deriving DecidableEq

/-- Slot.UNINIT: uninitialized value, state 0. -/
def Slot.UNINIT {T : Type} : Slot T := ⟨none, 0⟩

/-- A block in the linked list: the next pointer (none = null) and BLOCK_CAP slots. -/
structure Block (T : Type) where
  next : Option Nat
  slots : List (Slot T)
deriving DecidableEq

/-- Block::new() — null next pointer, BLOCK_CAP uninitialized slots. -/
def Block.new {T : Type} : Block T := ⟨none, List.replicate BLOCK_CAP Slot.UNINIT⟩

/-- Look a block up by its identifier in the heap (dereference a pointer). -/
def hfind {T : Type} : List (Nat × Block T) → Nat → Option (Block T)
  | [], _ => none
  | (k, b) :: rest, p => if k = p then some b else hfind rest p

/-- Replace the block stored at an identifier (write through a pointer). -/
def hset {T : Type} : List (Nat × Block T) → Nat → Block T → List (Nat × Block T)
  | [], _, _ => []
  | (k, b) :: rest, p, nb => if k = p then (k, nb) :: rest else (k, b) :: hset rest p nb

/-- Deallocate the block stored at an identifier (Block::destroy / Box::from_raw). -/
def hremove {T : Type} : List (Nat × Block T) → Nat → List (Nat × Block T)
  | [], _ => []
  | (k, b) :: rest, p => if k = p then rest else (k, b) :: hremove rest p

/-- Slot write of push (source lines 234-238): store the value, then fetch_or
the WRITE bit into the state. -/
def writeSlot {T : Type} (bs : List (Nat × Block T)) (p offset : Nat) (v : T) :
    List (Nat × Block T) :=
  match hfind bs p with
  | none => bs
  | some blk =>
    match blk.slots[offset]? with
    | none => bs
    | some sl => hset bs p { blk with slots := blk.slots.set offset ⟨some v, sl.state ||| WRITE⟩ }

/-- Store into a block's next pointer (source line 230). -/
def setNext {T : Type} (bs : List (Nat × Block T)) (p nid : Nat) : List (Nat × Block T) :=
  match hfind bs p with
  | none => bs
  | some blk => hset bs p { blk with next := some nid }

/-- The queue: the two Positions (index and block pointer for head and tail),
plus the heap of live blocks in allocation order and the fresh-pointer counter. -/
structure SegQueue (T : Type) where
  headIndex : Nat
  headBlock : Option Nat
  tailIndex : Nat
  tailBlock : Option Nat
  blocks : List (Nat × Block T)
  fresh : Nat
deriving DecidableEq

namespace SegQueue

/-- SegQueue::new() — both positions zero with null block pointers, no allocation. -/
def new {T : Type} : SegQueue T := ⟨0, none, 0, none, [], 0⟩

/-- SegQueue::push (source lines 196-239), sequential semantics.  One completed
push: reads tail.index / tail.block, computes the offset, allocates the first
block if needed, publishes the incremented tail index, installs the pre-allocated
successor when this push fills the block, and finally writes the value into the
old block's slot and sets its WRITE bit. -/
def push {T : Type} (s : SegQueue T) (value : T) : SegQueue T :=
  let tail := s.tailIndex
  let offset := (tail >>> SHIFT) % LAP
  -- lines 208-210: when this push fills the block, the successor is
  -- pre-allocated first; its identifier is reserved here
  let fills := offset + 1 = BLOCK_CAP
  let nextId := s.fresh
  let fresh1 := if fills then s.fresh + 1 else s.fresh
  -- lines 213-218: first push ever allocates the initial block and publishes
  -- it to tail.block and head.block
  let firstId := fresh1
  let block := match s.tailBlock with | none => firstId | some b => b
  let blocks1 := if s.tailBlock = none then s.blocks ++ [(firstId, Block.new)] else s.blocks
  let headBlock1 := if s.tailBlock = none then some firstId else s.headBlock
  let fresh2 := if s.tailBlock = none then fresh1 + 1 else fresh1
  -- lines 220-221: release-store the incremented tail index
  let new_tail := tail + (1 <<< SHIFT)
  -- lines 224-231: install the successor block
  let st : SegQueue T :=
    if fills then
      let next_index := new_tail + (1 <<< SHIFT)   -- wrapping_add on unbounded naturals
      { headIndex := s.headIndex, headBlock := headBlock1,
        tailIndex := next_index, tailBlock := some nextId,
        blocks := setNext (blocks1 ++ [(nextId, Block.new)]) block nextId,
        fresh := fresh2 }
    else
      { headIndex := s.headIndex, headBlock := headBlock1,
        tailIndex := new_tail,
        tailBlock := if s.tailBlock = none then some firstId else s.tailBlock,
        blocks := blocks1, fresh := fresh2 }
  -- lines 233-238: write the value into the slot of the old block
  { st with blocks := writeSlot st.blocks block offset value }

/-- The visible mutations performed by SegQueue::push, used to state temporal
claims about the order of operations inside one push. -/
inductive PushEvent where
  | setTailBlock (p : Nat)
  | storeHeadBlock (p : Nat)
  | storeTailIndex (i : Nat)
  | storeNext (blk succ : Nat)
  | writeSlotValue (blk off : Nat)
  | setWriteBit (blk off : Nat)
deriving DecidableEq

/-- The sequence of mutation events of one SegQueue::push (source lines 196-239),
in source order: optional first-block publication (lines 215-216), the tail
index store (line 221), then — when this push fills the block — the successor
installation in the order the source performs it (lines 228-230), and finally
the slot write (lines 236-237). -/
def push.events {T : Type} (s : SegQueue T) : List PushEvent :=
  let tail := s.tailIndex
  let offset := (tail >>> SHIFT) % LAP
  let fills := offset + 1 = BLOCK_CAP
  let nextId := s.fresh
  let fresh1 := if fills then s.fresh + 1 else s.fresh
  let firstId := fresh1
  let block := match s.tailBlock with | none => firstId | some b => b
  let new_tail := tail + (1 <<< SHIFT)
  (if s.tailBlock = none then
      [PushEvent.setTailBlock firstId, PushEvent.storeHeadBlock firstId]
    else []) ++
  [PushEvent.storeTailIndex new_tail] ++
  (if fills then
      [PushEvent.setTailBlock nextId,
       PushEvent.storeTailIndex (new_tail + (1 <<< SHIFT)),
       PushEvent.storeNext block nextId]
    else []) ++
  [PushEvent.writeSlotValue block offset, PushEvent.setWriteBit block offset]

/-- SegQueue::pop (source lines 256-320), sequential semantics.  Returns
none when a sequential execution would spin forever (wait_write / wait_next /
null first block while non-empty) or read uninitialized memory; otherwise
some (popped value option, new state). -/
def pop {T : Type} (s : SegQueue T) : Option (Option T × SegQueue T) :=
  let head := s.headIndex
  let offset := (head >>> SHIFT) % LAP
  let new_head0 := head + (1 <<< SHIFT)
  -- lines 267-274: with the HAS_NEXT hint clear, load tail and detect emptiness
  if new_head0 &&& HAS_NEXT = 0 ∧ head >>> SHIFT = s.tailIndex >>> SHIFT then
    some (none, s)
  else
    -- lines 276-279: remember that head and tail are in different blocks
    let new_head :=
      if new_head0 &&& HAS_NEXT = 0 ∧
          (head >>> SHIFT) / LAP ≠ (s.tailIndex >>> SHIFT) / LAP then
        new_head0 ||| HAS_NEXT
      else new_head0
    match s.headBlock with
    | none => none   -- lines 284-289: first push still in progress, spin
    | some block =>
      -- line 291
      let s1 : SegQueue T := { s with headIndex := new_head }
      -- lines 294-304: at the end of the block, wait for next and move to it
      let step : Option (SegQueue T) :=
        if offset + 1 = BLOCK_CAP then
          match (hfind s1.blocks block).bind Block.next with
          | none => none   -- wait_next spins forever sequentially
          | some next =>
            match hfind s1.blocks next with
            | none => none   -- dereference of an unallocated block
            | some nextBlk =>
              -- new_head & !HAS_NEXT clears the low bit, then wrapping_add
              let ni := 2 * (new_head / 2) + (1 <<< SHIFT)
              let ni := if (nextBlk.next).isSome then ni ||| HAS_NEXT else ni
              some { s1 with headBlock := some next, headIndex := ni }
        else some s1
      step.bind fun s2 =>
        -- lines 306-309: wait for the WRITE bit, read the value out
        (hfind s2.blocks block).bind fun blk =>
          match blk.slots[offset]? with
          | none => none   -- get_unchecked out of bounds
          | some slot =>
            if slot.state &&& WRITE = 0 then none   -- wait_write spins forever
            else
              slot.value.bind fun v =>
                -- lines 311-315: destroy the block at its end
                let s3 := if offset + 1 = BLOCK_CAP then
                    { s2 with blocks := hremove s2.blocks block }
                  else s2
                some (some v, s3)

/-- SegQueue::is_empty (source lines 335-339). -/
def is_empty {T : Type} (s : SegQueue T) : Bool :=
  s.headIndex >>> SHIFT == s.tailIndex >>> SHIFT

/-- SegQueue::len (source lines 357-390).  Sequentially the tail re-load always
observes the same value, so the retry loop runs exactly once and is dropped. -/
def len {T : Type} (s : SegQueue T) : Nat :=
  let tail := s.tailIndex
  let head := s.headIndex
  -- erase the lower bits: x &= !((1 << SHIFT) - 1)
  let tail := 2 * (tail / 2)
  let head := 2 * (head / 2)
  -- fix up indices that fall onto block ends
  let tail := if (tail >>> SHIFT) &&& (LAP - 1) = LAP - 1 then tail + (1 <<< SHIFT) else tail
  let head := if (head >>> SHIFT) &&& (LAP - 1) = LAP - 1 then head + (1 <<< SHIFT) else head
  -- rotate indices so that head falls into the first block
  let lap := (head >>> SHIFT) / LAP
  let tail := tail - ((lap * LAP) <<< SHIFT)   -- wrapping_sub; minuend dominates in reachable states
  let head := head - ((lap * LAP) <<< SHIFT)
  -- remove the lower bits
  let tail := tail >>> SHIFT
  let head := head >>> SHIFT
  tail - head - tail / LAP

/-- The loop body of Drop for SegQueue (source lines 405-421), with the loop
count passed explicitly: each iteration advances head by one sequence step, so
walking from head to tail takes (tail - head) >> SHIFT iterations.  Returns the
values whose destructors run (none marks a drop of uninitialized memory) and
the identifiers of the blocks freed, or none when the walk dereferences an
unallocated block. -/
def dropLoop {T : Type} (blocks : List (Nat × Block T)) (block : Option Nat) (head : Nat) :
    Nat → Option (List (Option T) × List Nat)
  | 0 =>
    -- lines 423-426: deallocate the last remaining block
    match block with
    | none => some ([], [])
    | some p => if (hfind blocks p).isSome then some ([], [p]) else none
  | n + 1 =>
    let offset := (head >>> SHIFT) % LAP
    match block with
    | none => none
    | some p =>
      match hfind blocks p with
      | none => none
      | some blk =>
        if offset < BLOCK_CAP then
          -- lines 408-412: drop the value in the slot
          (dropLoop blocks block (head + (1 <<< SHIFT)) n).map fun r =>
            ((blk.slots[offset]?.bind Slot.value) :: r.1, r.2)
        else
          -- lines 413-418: deallocate the block and move to the next one
          (dropLoop (hremove blocks p) blk.next (head + (1 <<< SHIFT)) n).map fun r =>
            (r.1, p :: r.2)

/-- Drop for SegQueue (source lines 393-428): erase the metadata bits of both
indices and walk from head to tail. -/
def drop {T : Type} (s : SegQueue T) : Option (List (Option T) × List Nat) :=
  let head := 2 * (s.headIndex / 2)   -- head &= !((1 << SHIFT) - 1)
  let tail := 2 * (s.tailIndex / 2)
  dropLoop s.blocks s.headBlock head ((tail - head) >>> SHIFT)

end SegQueue

/-- The consuming iterator: owns the queue (source lines 453-456). -/
structure IntoIter (T : Type) where
  value : SegQueue T
deriving DecidableEq

/-- SegQueue's IntoIterator::into_iter (source lines 448-450). -/
def SegQueue.into_iter {T : Type} (s : SegQueue T) : IntoIter T := ⟨s⟩

/-- Iterator::next for IntoIter (source lines 461-499).  Returns none when the
source would dereference an unallocated block or read uninitialized memory;
otherwise some (yielded item option, advanced iterator). -/
def IntoIter.next {T : Type} (it : IntoIter T) : Option (Option T × IntoIter T) :=
  let s := it.value
  let head := s.headIndex
  let tail := s.tailIndex
  if head >>> SHIFT = tail >>> SHIFT then
    some (none, it)
  else
    match s.headBlock with
    | none => none
    | some block =>
      let offset := (head >>> SHIFT) % LAP
      (hfind s.blocks block).bind fun blk =>
        match blk.slots[offset]? with
        | none => none
        | some slot =>
          slot.value.bind fun item =>
            if offset + 1 = BLOCK_CAP then
              -- lines 480-493: deallocate the block, move to the next one and
              -- skip the boundary slot: head.wrapping_add(2 << SHIFT)
              some (some item,
                ⟨{ s with blocks := hremove s.blocks block,
                          headBlock := blk.next,
                          headIndex := head + (2 <<< SHIFT) }⟩)
            else
              some (some item, ⟨{ s with headIndex := head + (1 <<< SHIFT) }⟩)

/-- Push a whole list of values, in order (driver for the theorems). -/
def SegQueue.pushAll {T : Type} (s : SegQueue T) (vs : List T) : SegQueue T :=
  vs.foldl SegQueue.push s

/-- Perform n pops, collecting the returned options; none if any pop is stuck. -/
def SegQueue.popList {T : Type} (s : SegQueue T) : Nat → Option (List (Option T))
  | 0 => some []
  | n + 1 => s.pop.bind fun r => (SegQueue.popList r.2 n).map (r.1 :: ·)

/-- Perform n pops, keeping only the final state; none if any pop is stuck. -/
def SegQueue.popN {T : Type} (s : SegQueue T) : Nat → Option (SegQueue T)
  | 0 => some s
  | n + 1 => s.pop.bind fun r => SegQueue.popN r.2 n

/-- Call next n times on a consuming iterator, collecting the yielded options. -/
def IntoIter.nextList {T : Type} (it : IntoIter T) : Nat → Option (List (Option T))
  | 0 => some []
  | n + 1 => it.next.bind fun r => (IntoIter.nextList r.2 n).map (r.1 :: ·)

/-! ## Representation invariant

A reachable non-pristine queue is described by an assignment f of a value to
every sequence number, the head sequence number H = headIndex >> SHIFT, the
tail sequence number Tl = tailIndex >> SHIFT, and a chain of blocks, one per
lap from H / LAP to Tl / LAP, linked by their next pointers and stored in the
heap in exactly that order.  Slot j of the block of lap L holds sequence
number q = LAP * L + j; slots with q < Tl have been written (WRITE set, value
f q), the others are untouched. -/

/-- The state of the slot holding sequence number q, relative to the tail
sequence number. -/
def slotOk {T : Type} (f : Nat → T) (Tl q : Nat) (sl : Slot T) : Prop :=
  if q < Tl then sl.state = WRITE ∧ sl.value = some (f q)
  else sl.state = 0 ∧ sl.value = none

/-- All slots of the block of lap L are as slotOk prescribes. -/
def blockSlotsOk {T : Type} (f : Nat → T) (Tl L : Nat) (b : Block T) : Prop :=
  b.slots.length = BLOCK_CAP ∧
    ∀ j sl, b.slots[j]? = some sl → slotOk f Tl (LAP * L + j) sl

/-- The heap is a non-empty chain of blocks for consecutive laps starting at L
and ending exactly at lap Tl / LAP: each block's next pointer names the
following heap entry and the last block's next pointer is null. -/
def chainOk {T : Type} (f : Nat → T) (Tl : Nat) : List (Nat × Block T) → Nat → Prop
  | [], _ => False
  | [(_, b)], L => b.next = none ∧ L = Tl / LAP ∧ blockSlotsOk f Tl L b
  | (_, b) :: (k', b') :: rest, L =>
      b.next = some k' ∧ blockSlotsOk f Tl L b ∧ chainOk f Tl ((k', b') :: rest) (L + 1)

/-- Invariant of a non-pristine reachable state (at least one push happened).
With care = false the HAS_NEXT-hint clause is dropped: the consuming iterator
does not maintain that hint, and never reads it. -/
structure InvNE {T : Type} (care : Bool) (s : SegQueue T) (f : Nat → T) : Prop where
  tailEven : s.tailIndex % 2 = 0
  hOff : (s.headIndex >>> SHIFT) % LAP < BLOCK_CAP
  tOff : (s.tailIndex >>> SHIFT) % LAP < BLOCK_CAP
  hLe : s.headIndex >>> SHIFT ≤ s.tailIndex >>> SHIFT
  hbitOk : care = true → s.headIndex % 2 = 1 →
    (s.headIndex >>> SHIFT) / LAP < (s.tailIndex >>> SHIFT) / LAP
  chain : chainOk f (s.tailIndex >>> SHIFT) s.blocks ((s.headIndex >>> SHIFT) / LAP)
  keysInc : (s.blocks.map Prod.fst).Chain' (· < ·)
  keysFresh : ∀ k ∈ s.blocks.map Prod.fst, k < s.fresh
  headPtr : s.headBlock = (s.blocks.map Prod.fst).head?
  tailPtr : s.tailBlock = (s.blocks.map Prod.fst).getLast?

/-- The values at the live sequence numbers, boundary positions skipped. -/
def seqList {T : Type} (f : Nat → T) (a b : Nat) : List T :=
  ((List.range' a (b - a)).filter fun q => q % LAP < BLOCK_CAP).map f

/-- Abstraction invariant: s is either the pristine state, or a non-pristine
state whose live values, oldest first, are exactly l. -/
def Inv {T : Type} (care : Bool) (s : SegQueue T) (l : List T) : Prop :=
  (s = SegQueue.new ∧ l = []) ∨
    ∃ f, InvNE care s f ∧ l = seqList f (s.headIndex >>> SHIFT) (s.tailIndex >>> SHIFT)

/-- States reachable from SegQueue::new() by completed push and pop operations,
paired with the list of values currently in the queue (pushed, not yet popped,
oldest first). -/
inductive Reach {T : Type} : SegQueue T → List T → Prop where
  | new : Reach SegQueue.new []
  | push {s : SegQueue T} {l : List T} (v : T) :
      Reach s l → Reach (s.push v) (l ++ [v])
  | pop {s s' : SegQueue T} {l : List T} {r : Option T} :
      Reach s l → s.pop = some (r, s') → Reach s' l.tail

/-! ## Arithmetic helpers -/

theorem shiftR1 (n : Nat) : n >>> SHIFT = n / 2 := by
  rw [SHIFT, Nat.shiftRight_eq_div_pow, pow_one]

theorem one_shl : (1 : Nat) <<< SHIFT = 2 := rfl

theorem two_shl : (2 : Nat) <<< SHIFT = 4 := rfl

theorem and_hasNext (n : Nat) : n &&& HAS_NEXT = n % 2 := by
  rw [HAS_NEXT, Nat.and_one_is_mod]

theorem or_one_of_even (n : Nat) (h : n % 2 = 0) : n ||| 1 = n + 1 := by
  apply Nat.eq_of_testBit_eq
  intro i
  cases i with
  | zero =>
    simp only [Nat.testBit_or, Nat.testBit_zero]
    have h1 : (n + 1) % 2 = 1 := by omega
    simp [h, h1]
  | succ i =>
    rw [Nat.testBit_or]
    have h1 : Nat.testBit 1 (i + 1) = false := by
      rw [Nat.testBit_add_one]
      norm_num
    rw [h1, Bool.or_false, Nat.testBit_add_one, Nat.testBit_add_one]
    have h2 : (n + 1) / 2 = n / 2 := by omega
    rw [h2]

theorem or_hasNext_of_even (n : Nat) (h : n % 2 = 0) : n ||| HAS_NEXT = n + 1 := by
  rw [HAS_NEXT, or_one_of_even n h]

/-! ## Heap helpers -/

theorem hfind_cons_self {T : Type} (k : Nat) (b : Block T) (rest : List (Nat × Block T)) :
    hfind ((k, b) :: rest) k = some b := by
  simp [hfind]

theorem hfind_cons_ne {T : Type} {k p : Nat} (b : Block T) (rest : List (Nat × Block T))
    (h : k ≠ p) : hfind ((k, b) :: rest) p = hfind rest p := by
  simp [hfind, h]

theorem hremove_cons_self {T : Type} (k : Nat) (b : Block T) (rest : List (Nat × Block T)) :
    hremove ((k, b) :: rest) k = rest := by
  simp [hremove]

theorem hset_keys {T : Type} (bs : List (Nat × Block T)) (p : Nat) (nb : Block T) :
    (hset bs p nb).map Prod.fst = bs.map Prod.fst := by
  induction bs with
  | nil => rfl
  | cons x rest ih =>
    obtain ⟨k, b⟩ := x
    by_cases h : k = p <;> simp [hset, h, ih]

theorem writeSlot_keys {T : Type} (bs : List (Nat × Block T)) (p o : Nat) (v : T) :
    (writeSlot bs p o v).map Prod.fst = bs.map Prod.fst := by
  unfold writeSlot
  cases hfind bs p with
  | none => rfl
  | some blk =>
    cases h2 : blk.slots[o]? with
    | none => simp [h2]
    | some sl => simp [h2, hset_keys]

theorem setNext_keys {T : Type} (bs : List (Nat × Block T)) (p nid : Nat) :
    (setNext bs p nid).map Prod.fst = bs.map Prod.fst := by
  unfold setNext
  cases hfind bs p with
  | none => rfl
  | some blk => simp [hset_keys]

theorem writeSlot_cons_ne {T : Type} {k0 p : Nat} (b0 : Block T) (rest : List (Nat × Block T))
    (o : Nat) (v : T) (h : k0 ≠ p) :
    writeSlot ((k0, b0) :: rest) p o v = (k0, b0) :: writeSlot rest p o v := by
  unfold writeSlot
  rw [hfind_cons_ne _ _ h]
  cases hfind rest p with
  | none => rfl
  | some blk =>
    cases h2 : blk.slots[o]? with
    | none => simp [h2]
    | some sl => simp [h2, hset, h]

theorem writeSlot_cons_self {T : Type} {k o : Nat} {b0 : Block T} {sl : Slot T}
    (rest : List (Nat × Block T)) (v : T) (hsl : b0.slots[o]? = some sl) :
    writeSlot ((k, b0) :: rest) k o v =
      (k, { b0 with slots := b0.slots.set o ⟨some v, sl.state ||| WRITE⟩ }) :: rest := by
  simp [writeSlot, hfind_cons_self, hsl, hset]

theorem setNext_cons_ne {T : Type} {k0 p : Nat} (b0 : Block T) (rest : List (Nat × Block T))
    (nid : Nat) (h : k0 ≠ p) :
    setNext ((k0, b0) :: rest) p nid = (k0, b0) :: setNext rest p nid := by
  unfold setNext
  rw [hfind_cons_ne _ _ h]
  cases hfind rest p with
  | none => rfl
  | some blk => simp [hset, h]

theorem setNext_cons_self {T : Type} {k : Nat} (b0 : Block T) (rest : List (Nat × Block T))
    (nid : Nat) :
    setNext ((k, b0) :: rest) k nid = (k, { b0 with next := some nid }) :: rest := by
  simp [setNext, hfind_cons_self, hset]

/-! ## chainOk structural lemmas -/

theorem chainOk_ne_nil {T : Type} {f : Nat → T} {Tl L : Nat} {bs : List (Nat × Block T)}
    (h : chainOk f Tl bs L) : bs ≠ [] := by
  intro he
  rw [he] at h
  exact h

theorem chainOk_cons_next {T : Type} {f : Nat → T} {Tl L k : Nat} {b : Block T}
    {rest : List (Nat × Block T)} (h : chainOk f Tl ((k, b) :: rest) L) :
    b.next = (rest.map Prod.fst).head? := by
  cases rest with
  | nil => exact h.1
  | cons x rest' =>
    obtain ⟨k', b'⟩ := x
    exact h.1

theorem chainOk_cons_slots {T : Type} {f : Nat → T} {Tl L k : Nat} {b : Block T}
    {rest : List (Nat × Block T)} (h : chainOk f Tl ((k, b) :: rest) L) :
    blockSlotsOk f Tl L b := by
  cases rest with
  | nil => exact h.2.2
  | cons x rest' =>
    obtain ⟨k', b'⟩ := x
    exact h.2.1

theorem chainOk_cons_rest {T : Type} {f : Nat → T} {Tl L k : Nat} {b : Block T}
    {rest : List (Nat × Block T)} (h : chainOk f Tl ((k, b) :: rest) L) (hne : rest ≠ []) :
    chainOk f Tl rest (L + 1) := by
  cases rest with
  | nil => exact absurd rfl hne
  | cons x rest' =>
    obtain ⟨k', b'⟩ := x
    exact h.2.2

theorem chainOk_cons_last {T : Type} {f : Nat → T} {Tl L k : Nat} {b : Block T}
    (h : chainOk f Tl [(k, b)] L) : L = Tl / LAP := h.2.1

theorem chainOk_le {T : Type} {f : Nat → T} {Tl L : Nat} {bs : List (Nat × Block T)}
    (h : chainOk f Tl bs L) : L ≤ Tl / LAP := by
  induction bs generalizing L with
  | nil => exact absurd h (by simp [chainOk])
  | cons x rest ih =>
    obtain ⟨k, b⟩ := x
    cases rest with
    | nil =>
      have := chainOk_cons_last h
      omega
    | cons y rest' =>
      have := ih (chainOk_cons_rest h (by simp))
      omega

theorem chainOk_length {T : Type} {f : Nat → T} {Tl L : Nat} {bs : List (Nat × Block T)}
    (h : chainOk f Tl bs L) : bs.length = Tl / LAP - L + 1 := by
  induction bs generalizing L with
  | nil => exact absurd h (by simp [chainOk])
  | cons x rest ih =>
    obtain ⟨k, b⟩ := x
    cases rest with
    | nil =>
      have := chainOk_cons_last h
      simp
      omega
    | cons y rest' =>
      have h1 := chainOk_cons_rest h (by simp)
      have h2 := ih h1
      have h3 := chainOk_le h1
      simp at h2 ⊢
      omega

theorem chainOk_rest_of_lt {T : Type} {f : Nat → T} {Tl L k : Nat} {b : Block T}
    {rest : List (Nat × Block T)} (h : chainOk f Tl ((k, b) :: rest) L)
    (hlt : L < Tl / LAP) : rest ≠ [] := by
  intro he
  rw [he] at h
  have := chainOk_cons_last h
  omega

theorem chainOk_slots_len {T : Type} {f : Nat → T} {Tl L : Nat} {bs : List (Nat × Block T)}
    (h : chainOk f Tl bs L) : ∀ p b, hfind bs p = some b → b.slots.length = BLOCK_CAP := by
  induction bs generalizing L with
  | nil => intro p b hb; simp [hfind] at hb
  | cons x rest ih =>
    obtain ⟨k, b0⟩ := x
    intro p b hb
    by_cases hk : k = p
    · subst hk
      rw [hfind_cons_self] at hb
      cases hb
      exact (chainOk_cons_slots h).1
    · rw [hfind_cons_ne _ _ hk] at hb
      cases rest with
      | nil => simp [hfind] at hb
      | cons y rest' =>
        exact ih (chainOk_cons_rest h (by simp)) p b hb

/-! ## slotOk / blockSlotsOk monotonicity -/

theorem slotOk_mono {T : Type} {f f' : Nat → T} {Tl Tl' q : Nat} {sl : Slot T}
    (h : slotOk f Tl q sl) (hf : ∀ r, r < Tl → f' r = f r) (hT : Tl ≤ Tl')
    (hq : q < Tl ∨ Tl' ≤ q) : slotOk f' Tl' q sl := by
  unfold slotOk at h ⊢
  rcases hq with hq | hq
  · rw [if_pos hq] at h
    rw [if_pos (by omega), hf q hq]
    exact h
  · rw [if_neg (by omega)] at h
    rw [if_neg (by omega)]
    exact h

theorem blockSlotsOk_mono_full {T : Type} {f f' : Nat → T} {Tl Tl' L : Nat} {b : Block T}
    (h : blockSlotsOk f Tl L b) (hfull : LAP * (L + 1) ≤ Tl)
    (hf : ∀ r, r < Tl → f' r = f r) (hT : Tl ≤ Tl') : blockSlotsOk f' Tl' L b := by
  refine ⟨h.1, fun j sl hsl => ?_⟩
  obtain ⟨hlt, -⟩ := List.getElem?_eq_some_iff.mp hsl
  rw [h.1] at hlt
  refine slotOk_mono (h.2 j sl hsl) hf hT (Or.inl ?_)
  simp only [LAP, BLOCK_CAP] at hlt hfull ⊢
  omega

theorem blockSlotsOk_new {T : Type} (f : Nat → T) {Tl L : Nat} (hT : Tl ≤ LAP * L) :
    blockSlotsOk f Tl L (Block.new (T := T)) := by
  constructor
  · simp [Block.new]
  · intro j sl hsl
    rw [Block.new, List.getElem?_replicate] at hsl
    by_cases hj : j < BLOCK_CAP
    · rw [if_pos hj] at hsl
      cases hsl
      unfold slotOk
      rw [if_neg (by omega)]
      exact ⟨rfl, rfl⟩
    · rw [if_neg hj] at hsl
      cases hsl

/-! ## seqList lemmas -/

theorem seqList_nil {T : Type} (f : Nat → T) (a : Nat) : seqList f a a = [] := by
  simp [seqList]

theorem seqList_cons {T : Type} (f : Nat → T) {a b : Nat} (hab : a < b)
    (ha : a % LAP < BLOCK_CAP) : seqList f a b = f a :: seqList f (a + 1) b := by
  unfold seqList
  have h1 : b - a = (b - (a + 1)) + 1 := by omega
  rw [h1, List.range'_succ, List.filter_cons, if_pos (by simpa using ha)]
  rfl

theorem seqList_cons_boundary {T : Type} (f : Nat → T) {a b : Nat} (hab : a < b)
    (ha : ¬ a % LAP < BLOCK_CAP) : seqList f a b = seqList f (a + 1) b := by
  unfold seqList
  have h1 : b - a = (b - (a + 1)) + 1 := by omega
  rw [h1, List.range'_succ, List.filter_cons, if_neg (by simpa using ha)]

theorem seqList_snoc {T : Type} (f : Nat → T) {a b : Nat} (hab : a ≤ b)
    (hb : b % LAP < BLOCK_CAP) : seqList f a (b + 1) = seqList f a b ++ [f b] := by
  unfold seqList
  have h1 : b + 1 - a = (b - a) + 1 := by omega
  rw [h1, List.range'_1_concat, List.filter_append, List.map_append]
  have h2 : a + (b - a) = b := by omega
  rw [h2, List.filter_cons, if_pos (by simpa using hb)]
  rfl

theorem seqList_snoc_boundary {T : Type} (f : Nat → T) {a b : Nat} (hab : a ≤ b)
    (hb : ¬ b % LAP < BLOCK_CAP) : seqList f a (b + 1) = seqList f a b := by
  unfold seqList
  have h1 : b + 1 - a = (b - a) + 1 := by omega
  rw [h1, List.range'_1_concat, List.filter_append, List.map_append]
  have h2 : a + (b - a) = b := by omega
  rw [h2, List.filter_cons, if_neg (by simpa using hb)]
  simp

theorem seqList_congr {T : Type} {f g : Nat → T} (a b : Nat)
    (h : ∀ q, a ≤ q → q < b → f q = g q) : seqList f a b = seqList g a b := by
  unfold seqList
  apply List.map_congr_left
  intro q hq
  have := List.mem_filter.mp hq
  have hm := List.mem_range'.mp this.1
  obtain ⟨i, hi, hq'⟩ := hm
  exact h q (by omega) (by omega)

theorem filter_range'_len :
    ∀ (n a0 : Nat), ((List.range' a0 n).filter fun q => q % LAP < BLOCK_CAP).length
      = n - ((a0 + n) / LAP - a0 / LAP) := by
  simp only [LAP, BLOCK_CAP]
  intro n
  induction n with
  | zero => intro a0; simp
  | succ m ih =>
    intro a0
    rw [List.range'_1_concat, List.filter_append, List.length_append, ih, List.filter_cons]
    by_cases hb2 : (a0 + m) % 32 < 32 - 1
    · rw [if_pos (by simpa using hb2)]
      simp only [List.filter_nil, List.length_cons, List.length_nil]
      omega
    · rw [if_neg (by simpa using hb2)]
      simp only [List.filter_nil, List.length_nil]
      omega

theorem seqList_length {T : Type} (f : Nat → T) (a b : Nat) (hab : a ≤ b) :
    (seqList f a b).length = (b - a) - (b / LAP - a / LAP) := by
  unfold seqList
  rw [List.length_map]
  have key := filter_range'_len (b - a) a
  have h2 : a + (b - a) = b := by omega
  rw [h2] at key
  exact key

theorem seqList_ne_nil {T : Type} (f : Nat → T) {a b : Nat} (hab : a < b)
    (ha : a % LAP < BLOCK_CAP) : seqList f a b ≠ [] := by
  rw [seqList_cons f hab ha]
  simp

theorem mem_of_getLast? {α : Type} {l : List α} {x : α} (h : l.getLast? = some x) : x ∈ l := by
  obtain ⟨hne, hx⟩ := List.mem_getLast?_eq_getLast (l := l) (x := x) (by simpa using h)
  rw [hx]
  exact List.getLast_mem hne

/-- The written tail slot of a push: writing value v with the WRITE bit into
the slot of sequence number Tl extends a correct block from tail Tl to any
larger tail, as long as the lap is unchanged. -/
theorem blockSlotsOk_write {T : Type} {f f' : Nat → T} {Tl Tl' L : Nat} {b : Block T} {v : T}
    (hslots : blockSlotsOk f Tl L b)
    (hL : L = Tl / LAP) (hoff : Tl % LAP < BLOCK_CAP)
    (hT : Tl < Tl') (hT2 : ∀ j, j < BLOCK_CAP → LAP * L + j ≠ Tl → LAP * L + j < Tl ∨ Tl' ≤ LAP * L + j)
    (hf : ∀ r, r < Tl → f' r = f r) (hfv : f' Tl = v)
    (hoc : Tl % LAP < b.slots.length) :
    blockSlotsOk f' Tl' L
      { b with slots := b.slots.set (Tl % LAP) ⟨some v, (b.slots.get ⟨Tl % LAP, hoc⟩).state ||| WRITE⟩ } := by
  have hq : LAP * L + Tl % LAP = Tl := by
    rw [hL]
    exact Nat.div_add_mod Tl LAP
  constructor
  · simpa using hslots.1
  · intro j sl hsl'
    simp only at hsl'
    by_cases hj : j = Tl % LAP
    · subst hj
      rw [List.getElem?_set_self hoc] at hsl'
      cases hsl'
      unfold slotOk
      rw [hq, if_pos hT]
      have hold := hslots.2 (Tl % LAP) (b.slots.get ⟨Tl % LAP, hoc⟩)
        (List.getElem?_eq_getElem hoc)
      unfold slotOk at hold
      rw [hq, if_neg (Nat.lt_irrefl Tl)] at hold
      rw [hold.1, hfv]
      exact ⟨Nat.zero_or WRITE, rfl⟩
    · rw [List.getElem?_set_ne (fun he => hj he.symm)] at hsl'
      have hjlt : j < BLOCK_CAP := by
        obtain ⟨hlt, -⟩ := List.getElem?_eq_some_iff.mp hsl'
        rw [hslots.1] at hlt
        exact hlt
      refine slotOk_mono (hslots.2 j sl hsl') hf (by omega) ?_
      exact hT2 j hjlt (fun he => hj (by omega))

/-- The slot write of a non-filling push preserves the chain: the written slot
holds the tail sequence number, the new tail is one step further. -/
theorem chainOk_push_nonfill {T : Type} {f f' : Nat → T} {Tl L k : Nat}
    {bs : List (Nat × Block T)} {v : T}
    (h : chainOk f Tl bs L)
    (hnd : (bs.map Prod.fst).Nodup)
    (hlast : (bs.map Prod.fst).getLast? = some k)
    (hoff : Tl % LAP + 1 < BLOCK_CAP)
    (hf : ∀ r, r < Tl → f' r = f r) (hfv : f' Tl = v) :
    chainOk f' (Tl + 1) (writeSlot bs k (Tl % LAP) v) L := by
  induction bs generalizing L with
  | nil => exact absurd h (by simp [chainOk])
  | cons x rest ih =>
    obtain ⟨k0, b0⟩ := x
    cases rest with
    | nil =>
      -- the single block is the tail block
      have hk0 : k0 = k := by simpa using hlast
      subst hk0
      obtain ⟨hnext, hL, hslots⟩ := h
      have hoc : Tl % LAP < b0.slots.length := by
        rw [hslots.1]
        omega
      have hsl : b0.slots[Tl % LAP]? = some (b0.slots.get ⟨Tl % LAP, hoc⟩) :=
        List.getElem?_eq_getElem hoc
      rw [writeSlot_cons_self [] v hsl]
      refine ⟨hnext, ?_, ?_⟩
      · rw [hL]
        simp only [LAP, BLOCK_CAP] at hoff ⊢
        omega
      · refine blockSlotsOk_write hslots hL (by omega) (by omega) ?_ hf hfv hoc
        intro j hj hne
        -- in the last block every slot other than the written one is off the tail
        have : LAP * L + j ≠ Tl := hne
        rw [hL] at this ⊢
        simp only [LAP, BLOCK_CAP] at *
        omega
    | cons y rest' =>
      obtain ⟨k1, b1⟩ := y
      have hlast' : (((k1, b1) :: rest').map Prod.fst).getLast? = some k := by
        simp only [List.map_cons] at hlast ⊢
        rw [List.getLast?_cons_cons] at hlast
        exact hlast
      have hk0ne : k0 ≠ k := by
        intro he
        subst he
        have hmem : k0 ∈ ((k1, b1) :: rest').map Prod.fst := mem_of_getLast? hlast'
        simp only [List.map_cons, List.nodup_cons] at hnd
        exact hnd.1 (by simpa using hmem)
      rw [writeSlot_cons_ne _ _ _ _ hk0ne]
      have hrest := chainOk_cons_rest h (by simp)
      have hnd' : (((k1, b1) :: rest').map Prod.fst).Nodup := by
        simp only [List.map_cons, List.nodup_cons] at hnd ⊢
        exact hnd.2
      have ihres := ih hrest hnd' hlast'
      have hfull : LAP * (L + 1) ≤ Tl := by
        have h1 := chainOk_le hrest
        simp only [LAP] at h1 ⊢
        omega
      have hhead : blockSlotsOk f' (Tl + 1) L b0 :=
        blockSlotsOk_mono_full (chainOk_cons_slots h) hfull hf (by omega)
      have hnext0 : b0.next = some k1 := by
        have := chainOk_cons_next h
        simpa using this
      cases hw : writeSlot ((k1, b1) :: rest') k (Tl % LAP) v with
      | nil =>
        have hk := writeSlot_keys ((k1, b1) :: rest') k (Tl % LAP) v
        rw [hw] at hk
        simp at hk
      | cons z rest2 =>
        obtain ⟨kz, bz⟩ := z
        have hkz : kz = k1 := by
          have hk := writeSlot_keys ((k1, b1) :: rest') k (Tl % LAP) v
          rw [hw] at hk
          simp at hk
          exact hk.1
        subst hkz
        rw [hw] at ihres
        exact ⟨hnext0, hhead, ihres⟩

/-- The successor installation plus slot write of a block-filling push
preserves the chain: the fresh block is appended, the old tail block's next
pointer is set to it, and the boundary sequence number is skipped. -/
theorem chainOk_push_fill {T : Type} {f f' : Nat → T} {Tl L k : Nat} (nid : Nat)
    {bs : List (Nat × Block T)} {v : T}
    (h : chainOk f Tl bs L)
    (hnd : (bs.map Prod.fst).Nodup)
    (hlast : (bs.map Prod.fst).getLast? = some k)
    (hoff : Tl % LAP + 1 = BLOCK_CAP)
    (hf : ∀ r, r < Tl → f' r = f r) (hfv : f' Tl = v) :
    chainOk f' (Tl + 2) (writeSlot (setNext (bs ++ [(nid, Block.new)]) k nid) k (Tl % LAP) v) L := by
  induction bs generalizing L with
  | nil => exact absurd h (by simp [chainOk])
  | cons x rest ih =>
    obtain ⟨k0, b0⟩ := x
    cases rest with
    | nil =>
      have hk0 : k0 = k := by simpa using hlast
      subst hk0
      obtain ⟨hnext, hL, hslots⟩ := h
      have hoc : Tl % LAP < b0.slots.length := by
        rw [hslots.1]
        simp only [LAP, BLOCK_CAP] at hoff ⊢
        omega
      rw [List.cons_append, List.nil_append, setNext_cons_self]
      have hsl : ({ b0 with next := some nid } : Block T).slots[Tl % LAP]?
          = some (b0.slots.get ⟨Tl % LAP, hoc⟩) :=
        List.getElem?_eq_getElem hoc
      rw [writeSlot_cons_self [(nid, Block.new)] v hsl]
      refine ⟨rfl, ?_, ?_, ?_, blockSlotsOk_new f' ?_⟩
      · refine blockSlotsOk_write (f := f) ?_ hL ?_ (by omega) ?_ hf hfv hoc
        · exact hslots
        · simp only [LAP, BLOCK_CAP] at hoff ⊢
          omega
        · intro j hj hne
          rw [hL] at hne ⊢
          simp only [LAP, BLOCK_CAP] at *
          omega
      · rfl
      · rw [hL]
        simp only [LAP, BLOCK_CAP] at hoff ⊢
        omega
      · rw [hL]
        simp only [LAP, BLOCK_CAP] at hoff ⊢
        omega
    | cons y rest' =>
      obtain ⟨k1, b1⟩ := y
      have hlast' : (((k1, b1) :: rest').map Prod.fst).getLast? = some k := by
        simp only [List.map_cons] at hlast ⊢
        rw [List.getLast?_cons_cons] at hlast
        exact hlast
      have hk0ne : k0 ≠ k := by
        intro he
        subst he
        have hmem : k0 ∈ ((k1, b1) :: rest').map Prod.fst := mem_of_getLast? hlast'
        simp only [List.map_cons, List.nodup_cons] at hnd
        exact hnd.1 (by simpa using hmem)
      rw [List.cons_append, setNext_cons_ne _ _ _ hk0ne, writeSlot_cons_ne _ _ _ _ hk0ne]
      have hrest := chainOk_cons_rest h (by simp)
      have hnd' : (((k1, b1) :: rest').map Prod.fst).Nodup := by
        simp only [List.map_cons, List.nodup_cons] at hnd ⊢
        exact hnd.2
      have ihres := ih hrest hnd' hlast'
      have hfull : LAP * (L + 1) ≤ Tl := by
        have h1 := chainOk_le hrest
        simp only [LAP] at h1 ⊢
        omega
      have hhead : blockSlotsOk f' (Tl + 2) L b0 :=
        blockSlotsOk_mono_full (chainOk_cons_slots h) hfull hf (by omega)
      have hnext0 : b0.next = some k1 := by
        have := chainOk_cons_next h
        simpa using this
      cases hw : writeSlot (setNext (((k1, b1) :: rest') ++ [(nid, Block.new)]) k nid) k (Tl % LAP) v with
      | nil =>
        have hk := writeSlot_keys (setNext (((k1, b1) :: rest') ++ [(nid, Block.new)]) k nid) k (Tl % LAP) v
        rw [hw, setNext_keys] at hk
        simp at hk
      | cons z rest2 =>
        obtain ⟨kz, bz⟩ := z
        have hkz : kz = k1 := by
          have hk := writeSlot_keys (setNext (((k1, b1) :: rest') ++ [(nid, Block.new)]) k nid) k (Tl % LAP) v
          rw [hw, setNext_keys] at hk
          simp at hk
          exact hk.1
        subst hkz
        rw [hw] at ihres
        exact ⟨hnext0, hhead, ihres⟩

/-! ## push characterizations -/

theorem push_eq_nonfill {T : Type} (s : SegQueue T) (v : T) {k : Nat}
    (hk : s.tailBlock = some k)
    (hnf : ¬ ((s.tailIndex >>> SHIFT) % LAP + 1 = BLOCK_CAP)) :
    s.push v = { s with tailIndex := s.tailIndex + (1 <<< SHIFT),
                        blocks := writeSlot s.blocks k ((s.tailIndex >>> SHIFT) % LAP) v } := by
  simp [SegQueue.push, hk, hnf]

theorem push_eq_fill {T : Type} (s : SegQueue T) (v : T) {k : Nat}
    (hk : s.tailBlock = some k)
    (hfl : (s.tailIndex >>> SHIFT) % LAP + 1 = BLOCK_CAP) :
    s.push v = ⟨s.headIndex, s.headBlock,
                s.tailIndex + (1 <<< SHIFT) + (1 <<< SHIFT), some s.fresh,
                writeSlot (setNext (s.blocks ++ [(s.fresh, Block.new)]) k s.fresh) k
                  ((s.tailIndex >>> SHIFT) % LAP) v,
                s.fresh + 1⟩ := by
  simp [SegQueue.push, hk, hfl]

theorem push_new_eq {T : Type} (v : T) :
    (SegQueue.new (T := T)).push v
      = ⟨0, some 0, 2, some 0,
         [(0, ⟨none, (List.replicate BLOCK_CAP (Slot.UNINIT (T := T))).set 0 ⟨some v, 1⟩⟩)], 1⟩ := by
  simp [SegQueue.push, SegQueue.new, writeSlot, setNext, hfind, hset, Block.new,
    SHIFT, LAP, BLOCK_CAP, WRITE, Slot.UNINIT]

theorem nodup_of_chain_lt (ks : List Nat) (h : ks.Chain' (· < ·)) : ks.Nodup :=
  (List.chain'_iff_pairwise.mp h).nodup

/-! ## Invariant preservation: push -/

theorem keys_ne_nil {T : Type} {s : SegQueue T} {f : Nat → T} {care : Bool}
    (hne : InvNE care s f) : s.blocks.map Prod.fst ≠ [] := by
  have := chainOk_ne_nil hne.chain
  simpa using this

/-- InvNE with the state given componentwise, so that applying it leaves goals
about the components rather than about projections of a record literal. -/
theorem InvNE.of_parts {T : Type} {care : Bool} (hI : Nat) (hB : Option Nat) (tI : Nat)
    (tB : Option Nat) (bs : List (Nat × Block T)) (fr : Nat) (f : Nat → T)
    (h1 : tI % 2 = 0)
    (h2 : (hI >>> SHIFT) % LAP < BLOCK_CAP)
    (h3 : (tI >>> SHIFT) % LAP < BLOCK_CAP)
    (h4 : hI >>> SHIFT ≤ tI >>> SHIFT)
    (h5 : care = true → hI % 2 = 1 → (hI >>> SHIFT) / LAP < (tI >>> SHIFT) / LAP)
    (h6 : chainOk f (tI >>> SHIFT) bs ((hI >>> SHIFT) / LAP))
    (h7 : (bs.map Prod.fst).Chain' (· < ·))
    (h8 : ∀ k ∈ bs.map Prod.fst, k < fr)
    (h9 : hB = (bs.map Prod.fst).head?)
    (h10 : tB = (bs.map Prod.fst).getLast?) :
    InvNE care (⟨hI, hB, tI, tB, bs, fr⟩ : SegQueue T) f :=
  ⟨h1, h2, h3, h4, h5, h6, h7, h8, h9, h10⟩

theorem Inv_push {T : Type} {care : Bool} {s : SegQueue T} {l : List T} (v : T)
    (h : Inv care s l) : Inv care (s.push v) (l ++ [v]) := by
  rcases h with ⟨hs, hl⟩ | ⟨f, hne, hl⟩
  · -- pristine state: the first push allocates the first block
    subst hs
    subst hl
    rw [push_new_eq]
    right
    refine ⟨fun _ => v, ?_, ?_⟩
    · refine InvNE.of_parts 0 (some 0) 2 (some 0) _ 1 _ (by decide) (by decide) (by decide)
        (by decide) ?_ ?_ ?_ ?_ rfl rfl
      · intro _ hb
        exact absurd hb (by decide)
      · -- chain of the single fresh block
        rw [show ((2 : Nat) >>> SHIFT) = 1 by decide,
          show ((0 : Nat) >>> SHIFT / LAP) = 0 by decide]
        refine ⟨rfl, by decide, ?_, ?_⟩
        · simp [BLOCK_CAP, LAP]
        · intro j sl hsl
          simp only at hsl
          by_cases hj : j = 0
          · subst hj
            rw [List.getElem?_set_self (by simp [BLOCK_CAP, LAP])] at hsl
            cases hsl
            unfold slotOk
            rw [if_pos (by decide)]
            exact ⟨rfl, rfl⟩
          · rw [List.getElem?_set_ne (fun he => hj he.symm), List.getElem?_replicate] at hsl
            by_cases hjc : j < BLOCK_CAP
            · rw [if_pos hjc] at hsl
              cases hsl
              unfold slotOk
              rw [if_neg (by omega)]
              exact ⟨rfl, rfl⟩
            · rw [if_neg hjc] at hsl
              cases hsl
      · simp
      · intro k hk
        simp at hk
        subst hk
        decide
    · show [] ++ [v] = seqList (fun _ => v) ((0 : Nat) >>> SHIFT) ((2 : Nat) >>> SHIFT)
      rw [List.nil_append]
      rw [show ((0 : Nat) >>> SHIFT) = 0 by decide, show ((2 : Nat) >>> SHIFT) = 1 by decide]
      rw [seqList_cons _ (by decide) (by decide), seqList_nil]
  · -- non-pristine state
    have hbs := keys_ne_nil hne
    cases hkl : (s.blocks.map Prod.fst).getLast? with
    | none => exact absurd (List.getLast?_eq_none_iff.mp hkl) hbs
    | some k =>
    have hk : s.tailBlock = some k := by rw [hne.tailPtr, hkl]
    have hnd := nodup_of_chain_lt _ hne.keysInc
    have hf : ∀ r, r < s.tailIndex >>> SHIFT →
        (fun q => if q = s.tailIndex >>> SHIFT then v else f q) r = f r := by
      intro r hr
      simp only
      rw [if_neg (by omega)]
    have hfv : (fun q => if q = s.tailIndex >>> SHIFT then v else f q) (s.tailIndex >>> SHIFT) = v := by
      simp
    have hkfresh : k < s.fresh := hne.keysFresh k (mem_of_getLast? hkl)
    by_cases hfl : (s.tailIndex >>> SHIFT) % LAP + 1 = BLOCK_CAP
    · -- this push fills the block
      rw [push_eq_fill s v hk hfl]
      right
      refine ⟨fun q => if q = s.tailIndex >>> SHIFT then v else f q, ?_, ?_⟩
      · have hTl : (s.tailIndex + 1 <<< SHIFT + 1 <<< SHIFT) >>> SHIFT
            = (s.tailIndex >>> SHIFT) + 2 := by
          simp only [shiftR1, one_shl]
          omega
        have htE := hne.tailEven
        refine InvNE.of_parts _ _ _ _ _ _ _ ?_ hne.hOff ?_ ?_ ?_ ?_ ?_ ?_ ?_ ?_
        · simp only [one_shl]
          omega
        · rw [hTl]
          simp only [shiftR1, LAP, BLOCK_CAP] at hfl ⊢
          omega
        · rw [hTl]
          have := hne.hLe
          omega
        · intro hc hb
          have := hne.hbitOk hc hb
          rw [hTl]
          simp only [shiftR1, LAP] at this ⊢
          omega
        · rw [hTl]
          exact chainOk_push_fill s.fresh hne.chain hnd hkl hfl hf hfv
        · rw [writeSlot_keys, setNext_keys, List.map_append]
          rw [List.chain'_append]
          refine ⟨hne.keysInc, by simp, ?_⟩
          intro x hx y hy
          simp only [List.map_cons, List.map_nil, List.head?_cons, Option.mem_def,
            Option.some.injEq] at hy
          rw [hkl] at hx
          simp only [Option.mem_def, Option.some.injEq] at hx
          subst hx
          subst hy
          exact hkfresh
        · rw [writeSlot_keys, setNext_keys, List.map_append]
          intro k' hk'
          rcases List.mem_append.mp hk' with hmem | hmem
          · have := hne.keysFresh k' hmem
            omega
          · simp at hmem
            omega
        · rw [writeSlot_keys, setNext_keys, List.map_append, List.head?_append]
          cases hks : s.blocks.map Prod.fst with
          | nil => exact absurd hks hbs
          | cons k0 ks =>
            rw [hne.headPtr, hks]
            rfl
        · rw [writeSlot_keys, setNext_keys, List.map_append]
          simp
      · show l ++ [v] = seqList _ (s.headIndex >>> SHIFT)
          ((s.tailIndex + 1 <<< SHIFT + 1 <<< SHIFT) >>> SHIFT)
        have hTl : (s.tailIndex + 1 <<< SHIFT + 1 <<< SHIFT) >>> SHIFT
            = (s.tailIndex >>> SHIFT) + 2 := by
          simp only [shiftR1, one_shl]
          omega
        rw [hTl]
        have h30 : (s.tailIndex >>> SHIFT) % LAP < BLOCK_CAP := hne.tOff
        have hbd : ¬ ((s.tailIndex >>> SHIFT) + 1) % LAP < BLOCK_CAP := by
          simp only [LAP, BLOCK_CAP] at hfl ⊢
          omega
        rw [show (s.tailIndex >>> SHIFT) + 2 = ((s.tailIndex >>> SHIFT) + 1) + 1 from rfl]
        rw [seqList_snoc_boundary _ (by have := hne.hLe; omega) hbd]
        rw [seqList_snoc _ hne.hLe h30]
        rw [seqList_congr _ _ (fun q h1 h2 => hf q h2), if_pos rfl, hl]
    · -- ordinary push
      rw [push_eq_nonfill s v hk hfl]
      right
      refine ⟨fun q => if q = s.tailIndex >>> SHIFT then v else f q, ?_, ?_⟩
      · have hTl : (s.tailIndex + 1 <<< SHIFT) >>> SHIFT = (s.tailIndex >>> SHIFT) + 1 := by
          simp only [shiftR1, one_shl]
          have := hne.tailEven
          omega
        have hoff2 : (s.tailIndex >>> SHIFT) % LAP + 1 < BLOCK_CAP := by
          have := hne.tOff
          simp only [LAP, BLOCK_CAP] at *
          omega
        refine InvNE.of_parts _ _ _ _ _ _ _ ?_ hne.hOff ?_ ?_ ?_ ?_ ?_ ?_ ?_ ?_
        · simp only [one_shl]
          have := hne.tailEven
          omega
        · rw [hTl]
          simp only [shiftR1, LAP, BLOCK_CAP] at hoff2 ⊢
          omega
        · rw [hTl]
          have := hne.hLe
          omega
        · intro hc hb
          have := hne.hbitOk hc hb
          rw [hTl]
          simp only [shiftR1, LAP] at this ⊢
          omega
        · rw [hTl]
          exact chainOk_push_nonfill hne.chain hnd hkl hoff2 hf hfv
        · rw [writeSlot_keys]
          exact hne.keysInc
        · rw [writeSlot_keys]
          intro k' hk'
          exact hne.keysFresh k' hk'
        · rw [writeSlot_keys]
          exact hne.headPtr
        · rw [writeSlot_keys]
          exact hne.tailPtr
      · show l ++ [v] = seqList _ (s.headIndex >>> SHIFT) ((s.tailIndex + 1 <<< SHIFT) >>> SHIFT)
        have hTl : (s.tailIndex + 1 <<< SHIFT) >>> SHIFT = (s.tailIndex >>> SHIFT) + 1 := by
          simp only [shiftR1, one_shl]
          have := hne.tailEven
          omega
        rw [hTl]
        rw [seqList_snoc _ hne.hLe hne.tOff]
        rw [seqList_congr _ _ (fun q h1 h2 => hf q h2), if_pos rfl, hl]

/-! ## pop characterizations -/

theorem pop_eq_empty {T : Type} (s : SegQueue T) (hev : s.headIndex % 2 = 0)
    (heq : s.headIndex >>> SHIFT = s.tailIndex >>> SHIFT) : s.pop = some (none, s) := by
  have hc : (s.headIndex + 1 <<< SHIFT) &&& HAS_NEXT = 0 := by
    rw [and_hasNext, one_shl]
    omega
  unfold SegQueue.pop
  rw [if_pos ⟨hc, heq⟩]

theorem pop_eq_mid {T : Type} (s : SegQueue T) {k0 : Nat} {b0 : Block T} {sl : Slot T} {v : T}
    (hhb : s.headBlock = some k0)
    (hfind0 : hfind s.blocks k0 = some b0)
    (hne : s.headIndex >>> SHIFT ≠ s.tailIndex >>> SHIFT)
    (hoff : ¬ ((s.headIndex >>> SHIFT) % LAP + 1 = BLOCK_CAP))
    (hsl : b0.slots[(s.headIndex >>> SHIFT) % LAP]? = some sl)
    (hw : ¬ (sl.state &&& WRITE = 0)) (hvv : sl.value = some v) :
    s.pop = some (some v,
      { s with headIndex :=
          if (s.headIndex + 1 <<< SHIFT) &&& HAS_NEXT = 0 ∧
              (s.headIndex >>> SHIFT) / LAP ≠ (s.tailIndex >>> SHIFT) / LAP then
            (s.headIndex + 1 <<< SHIFT) ||| HAS_NEXT
          else s.headIndex + 1 <<< SHIFT }) := by
  unfold SegQueue.pop
  rw [if_neg (fun hc => hne hc.2)]
  simp [hhb, hfind0, hsl, hvv, hoff, hw]

theorem pop_eq_boundary {T : Type} (s : SegQueue T)
    {k0 k1 : Nat} {b0 b1 : Block T} {sl : Slot T} {v : T}
    (hhb : s.headBlock = some k0)
    (hfind0 : hfind s.blocks k0 = some b0)
    (hne : s.headIndex >>> SHIFT ≠ s.tailIndex >>> SHIFT)
    (hoff : (s.headIndex >>> SHIFT) % LAP + 1 = BLOCK_CAP)
    (hnx : b0.next = some k1)
    (hfind1 : hfind s.blocks k1 = some b1)
    (hsl : b0.slots[(s.headIndex >>> SHIFT) % LAP]? = some sl)
    (hw : ¬ (sl.state &&& WRITE = 0)) (hvv : sl.value = some v) :
    s.pop = some (some v,
      { s with
          headIndex :=
            (fun ni0 => if b1.next.isSome then ni0 ||| HAS_NEXT else ni0)
              (2 * ((if (s.headIndex + 1 <<< SHIFT) &&& HAS_NEXT = 0 ∧
                      (s.headIndex >>> SHIFT) / LAP ≠ (s.tailIndex >>> SHIFT) / LAP then
                    (s.headIndex + 1 <<< SHIFT) ||| HAS_NEXT
                  else s.headIndex + 1 <<< SHIFT) / 2) + 1 <<< SHIFT),
          headBlock := some k1,
          blocks := hremove s.blocks k0 }) := by
  unfold SegQueue.pop
  rw [if_neg (fun hc => hne hc.2)]
  simp [hhb, hfind0, hsl, hvv, hoff, hnx, hfind1, hw]

/-! ## Invariant preservation: pop -/

theorem Inv_pop_nil {T : Type} {s : SegQueue T} (h : Inv true s []) :
    s.pop = some (none, s) := by
  rcases h with ⟨hs, -⟩ | ⟨f, hne, hl⟩
  · subst hs
    exact pop_eq_empty _ (show (0 : Nat) % 2 = 0 by decide) rfl
  · have hHT : s.headIndex >>> SHIFT = s.tailIndex >>> SHIFT := by
      by_contra hne2
      have hlt : s.headIndex >>> SHIFT < s.tailIndex >>> SHIFT :=
        lt_of_le_of_ne hne.hLe hne2
      exact seqList_ne_nil f hlt hne.hOff hl.symm
    have hev : s.headIndex % 2 = 0 := by
      by_contra hodd
      have h1 := hne.hbitOk rfl (by omega)
      rw [hHT] at h1
      omega
    exact pop_eq_empty s hev hHT

theorem Inv_pop_cons {T : Type} {s : SegQueue T} {v : T} {l : List T}
    (h : Inv true s (v :: l)) :
    ∃ s', s.pop = some (some v, s') ∧ Inv true s' l := by
  rcases h with ⟨-, hl⟩ | ⟨f, hne, hl⟩
  · exact absurd hl (by simp)
  · obtain hbs := chainOk_ne_nil hne.chain
    cases hbss : s.blocks with
    | nil => exact absurd hbss hbs
    | cons x rest =>
    obtain ⟨k0, b0⟩ := x
    have hhb : s.headBlock = some k0 := by
      rw [hne.headPtr, hbss]
      rfl
    have hchain := hne.chain
    rw [hbss] at hchain
    have hslots := chainOk_cons_slots hchain
    have hH : s.headIndex >>> SHIFT < s.tailIndex >>> SHIFT := by
      rcases lt_or_eq_of_le hne.hLe with hlt | heq2
      · exact hlt
      · rw [← heq2, seqList_nil] at hl
        exact absurd hl (by simp)
    have hfind0 : hfind s.blocks k0 = some b0 := by
      rw [hbss]
      exact hfind_cons_self ..
    have hoc : (s.headIndex >>> SHIFT) % LAP < b0.slots.length := by
      rw [hslots.1]
      exact hne.hOff
    have hslE : b0.slots[(s.headIndex >>> SHIFT) % LAP]?
        = some (b0.slots.get ⟨(s.headIndex >>> SHIFT) % LAP, hoc⟩) :=
      List.getElem?_eq_getElem hoc
    have hsok := hslots.2 _ _ hslE
    have hq : LAP * ((s.headIndex >>> SHIFT) / LAP) + (s.headIndex >>> SHIFT) % LAP
        = s.headIndex >>> SHIFT := Nat.div_add_mod ..
    rw [hq] at hsok
    unfold slotOk at hsok
    rw [if_pos hH] at hsok
    obtain ⟨hst, hval⟩ := hsok
    have hw : ¬ ((b0.slots.get ⟨(s.headIndex >>> SHIFT) % LAP, hoc⟩).state &&& WRITE = 0) := by
      rw [hst]
      decide
    rw [seqList_cons f hH hne.hOff] at hl
    have hv : v = f (s.headIndex >>> SHIFT) := (List.cons.injEq .. ▸ hl).1
    have hltail : l = seqList f ((s.headIndex >>> SHIFT) + 1) (s.tailIndex >>> SHIFT) :=
      (List.cons.injEq .. ▸ hl).2
    have hvv : (b0.slots.get ⟨(s.headIndex >>> SHIFT) % LAP, hoc⟩).value = some v := by
      rw [hval, hv]
    -- the advanced head index, before the boundary adjustment, always has
    -- sequence number H + 1
    have hnh : (if (s.headIndex + 1 <<< SHIFT) &&& HAS_NEXT = 0 ∧
          (s.headIndex >>> SHIFT) / LAP ≠ (s.tailIndex >>> SHIFT) / LAP then
        (s.headIndex + 1 <<< SHIFT) ||| HAS_NEXT
      else s.headIndex + 1 <<< SHIFT) >>> SHIFT = (s.headIndex >>> SHIFT) + 1 := by
      split
      next hC =>
        have hevn : (s.headIndex + 1 <<< SHIFT) % 2 = 0 := by
          rw [← and_hasNext]
          exact hC.1
        rw [or_hasNext_of_even _ hevn]
        simp only [shiftR1, one_shl] at hevn ⊢
        omega
      next =>
        simp only [shiftR1, one_shl]
        omega
    by_cases hoff : (s.headIndex >>> SHIFT) % LAP + 1 = BLOCK_CAP
    · -- the pop consumes the last real slot of the head block
      have hlt2 : (s.headIndex >>> SHIFT) / LAP < (s.tailIndex >>> SHIFT) / LAP := by
        have h1 := hne.tOff
        simp only [LAP, BLOCK_CAP] at hoff h1 ⊢
        omega
      have hrest_ne : rest ≠ [] := chainOk_rest_of_lt hchain hlt2
      cases rest with
      | nil => exact absurd rfl hrest_ne
      | cons y rest' =>
      obtain ⟨k1, b1⟩ := y
      have hnx : b0.next = some k1 := by
        have := chainOk_cons_next hchain
        simpa using this
      have hk01 : k0 ≠ k1 := by
        have hki := hne.keysInc
        rw [hbss] at hki
        simp only [List.map_cons] at hki
        exact Nat.ne_of_lt (List.chain'_cons.mp hki).1
      have hfind1 : hfind s.blocks k1 = some b1 := by
        rw [hbss, hfind_cons_ne _ _ hk01]
        exact hfind_cons_self ..
      have hpop := pop_eq_boundary s hhb hfind0 (Nat.ne_of_lt hH) hoff hnx hfind1 hslE hw hvv
      refine ⟨_, hpop, ?_⟩
      have hrchain : chainOk f (s.tailIndex >>> SHIFT) ((k1, b1) :: rest')
          ((s.headIndex >>> SHIFT) / LAP + 1) := chainOk_cons_rest hchain (by simp)
      have hrem : hremove s.blocks k0 = (k1, b1) :: rest' := by
        rw [hbss]
        exact hremove_cons_self ..
      have hb1n : b1.next = (rest'.map Prod.fst).head? := chainOk_cons_next hrchain
      have hnh2 : (if (s.headIndex + 1 <<< SHIFT) &&& HAS_NEXT = 0 ∧
            (s.headIndex >>> SHIFT) / LAP ≠ (s.tailIndex >>> SHIFT) / LAP then
          (s.headIndex + 1 <<< SHIFT) ||| HAS_NEXT
        else s.headIndex + 1 <<< SHIFT) / 2 = (s.headIndex >>> SHIFT) + 1 := by
        rw [← shiftR1]
        exact hnh
      have hT2 : (s.headIndex >>> SHIFT) + 2 ≤ s.tailIndex >>> SHIFT := by
        have h1 := hne.tOff
        simp only [LAP, BLOCK_CAP] at hoff h1 hlt2 ⊢
        omega
      have hkeys : List.Chain' (· < ·) (((k1, b1) :: rest').map Prod.fst) := by
        have hki := hne.keysInc
        rw [hbss] at hki
        simp only [List.map_cons] at hki ⊢
        exact hki.tail
      have hkf : ∀ kk ∈ ((k1, b1) :: rest').map Prod.fst, kk < s.fresh := by
        intro kk hkk
        apply hne.keysFresh
        rw [hbss]
        simp only [List.map_cons] at hkk ⊢
        exact List.mem_cons_of_mem _ hkk
      have htp : s.tailBlock = (((k1, b1) :: rest').map Prod.fst).getLast? := by
        rw [hne.tailPtr, hbss]
        simp only [List.map_cons, List.getLast?_cons_cons]
      have hlgoal : l = seqList f ((s.headIndex >>> SHIFT) + 2) (s.tailIndex >>> SHIFT) := by
        rw [hltail]
        exact seqList_cons_boundary f (by omega)
          (by simp only [LAP, BLOCK_CAP] at hoff ⊢; omega)
      rw [hrem, hnh2, one_shl]
      right
      cases hb1v : b1.next with
      | some k2 =>
        have hrne : rest' ≠ [] := by
          intro he
          rw [he] at hb1n
          rw [hb1v] at hb1n
          simp at hb1n
        have hLL : (s.headIndex >>> SHIFT) / LAP + 2 ≤ (s.tailIndex >>> SHIFT) / LAP := by
          have := chainOk_le (chainOk_cons_rest hrchain hrne)
          omega
        refine ⟨f, ?_, ?_⟩
        · simp only [hb1v, Option.isSome_some]
          rw [if_pos trivial, or_hasNext_of_even _ (by omega)]
          refine InvNE.of_parts _ _ _ _ _ _ _ hne.tailEven ?_ hne.tOff ?_ ?_ ?_ hkeys hkf
            (by simp) htp
          · simp only [shiftR1, LAP, BLOCK_CAP] at hoff ⊢
            omega
          · simp only [shiftR1] at hT2 ⊢
            omega
          · intro _ _
            simp only [shiftR1, LAP, BLOCK_CAP] at hoff hLL ⊢
            omega
          · have hdiv : ((2 * ((s.headIndex >>> SHIFT) + 1) + 2 + 1) >>> SHIFT) / LAP
                = (s.headIndex >>> SHIFT) / LAP + 1 := by
              simp only [shiftR1, LAP, BLOCK_CAP] at hoff ⊢
              omega
            rw [hdiv]
            exact hrchain
        · simp only [hb1v, Option.isSome_some]
          rw [if_pos trivial, or_hasNext_of_even _ (by omega)]
          rw [show ((2 * ((s.headIndex >>> SHIFT) + 1) + 2 + 1) >>> SHIFT)
              = (s.headIndex >>> SHIFT) + 2 from by simp only [shiftR1]; omega]
          exact hlgoal
      | none =>
        refine ⟨f, ?_, ?_⟩
        · simp only [hb1v, Option.isSome_none]
          rw [if_neg Bool.false_ne_true]
          refine InvNE.of_parts _ _ _ _ _ _ _ hne.tailEven ?_ hne.tOff ?_ ?_ ?_ hkeys hkf
            (by simp) htp
          · simp only [shiftR1, LAP, BLOCK_CAP] at hoff ⊢
            omega
          · simp only [shiftR1] at hT2 ⊢
            omega
          · intro _ hb
            exact absurd hb (by simp only [shiftR1]; omega)
          · have hdiv : ((2 * ((s.headIndex >>> SHIFT) + 1) + 2) >>> SHIFT) / LAP
                = (s.headIndex >>> SHIFT) / LAP + 1 := by
              simp only [shiftR1, LAP, BLOCK_CAP] at hoff ⊢
              omega
            rw [hdiv]
            exact hrchain
        · simp only [hb1v, Option.isSome_none]
          rw [if_neg Bool.false_ne_true]
          rw [show ((2 * ((s.headIndex >>> SHIFT) + 1) + 2) >>> SHIFT)
              = (s.headIndex >>> SHIFT) + 2 from by simp only [shiftR1]; omega]
          exact hlgoal
    · -- ordinary pop in the middle of a block
      have hpop := pop_eq_mid s hhb hfind0 (Nat.ne_of_lt hH) hoff hslE hw hvv
      refine ⟨_, hpop, ?_⟩
      right
      refine ⟨f, ?_, ?_⟩
      · refine InvNE.of_parts _ _ _ _ _ _ _ hne.tailEven ?_ hne.tOff ?_ ?_ ?_ hne.keysInc
          hne.keysFresh hne.headPtr hne.tailPtr
        · rw [hnh]
          have h1 := hne.hOff
          simp only [LAP, BLOCK_CAP] at hoff h1 ⊢
          omega
        · rw [hnh]
          omega
        · intro hc hb
          rw [hnh]
          have hsame : ((s.headIndex >>> SHIFT) + 1) / LAP = (s.headIndex >>> SHIFT) / LAP := by
            have h1 := hne.hOff
            simp only [LAP, BLOCK_CAP] at hoff h1 ⊢
            omega
          rw [hsame]
          revert hb
          split
          next hC =>
            intro hb
            exact lt_of_le_of_ne (Nat.div_le_div_right hne.hLe) hC.2
          next hC =>
            intro hb
            exact hne.hbitOk rfl (by rw [one_shl] at hb; omega)
        · rw [hnh]
          have hsame : ((s.headIndex >>> SHIFT) + 1) / LAP = (s.headIndex >>> SHIFT) / LAP := by
            have h1 := hne.hOff
            simp only [LAP, BLOCK_CAP] at hoff h1 ⊢
            omega
          rw [hsame]
          exact hne.chain
      · simp only
        rw [hnh]
        exact hltail

/-! ## Observational operations under the invariant -/

theorem and_lap (n : Nat) : n &&& (LAP - 1) = n % LAP := by
  rw [show ((LAP - 1 : Nat)) = 2 ^ 5 - 1 from by norm_num [LAP], Nat.and_pow_two_sub_one_eq_mod]
  norm_num [LAP]

theorem Inv_len {T : Type} {care : Bool} {s : SegQueue T} {l : List T}
    (h : Inv care s l) : s.len = l.length := by
  rcases h with ⟨hs, hl⟩ | ⟨f, hne, hl⟩
  · subst hs
    subst hl
    simp [SegQueue.len, SegQueue.new]
  · rw [hl, seqList_length f _ _ hne.hLe]
    have htE := hne.tailEven
    have hOff := hne.hOff
    have htOff := hne.tOff
    have hLe := hne.hLe
    unfold SegQueue.len
    simp only [shiftR1, one_shl, Nat.shiftLeft_eq, SHIFT, pow_one, and_lap] at *
    simp only [LAP, BLOCK_CAP] at *
    split <;> split <;> omega

theorem Inv_is_empty {T : Type} {care : Bool} {s : SegQueue T} {l : List T}
    (h : Inv care s l) : (s.is_empty = true ↔ l = []) := by
  rcases h with ⟨hs, hl⟩ | ⟨f, hne, hl⟩
  · subst hs
    subst hl
    simp [SegQueue.is_empty, SegQueue.new]
  · unfold SegQueue.is_empty
    rw [Nat.beq_eq_true_eq]
    constructor
    · intro he
      rw [hl, ← he, seqList_nil]
    · intro he
      by_contra hne2
      have hlt : s.headIndex >>> SHIFT < s.tailIndex >>> SHIFT :=
        lt_of_le_of_ne hne.hLe hne2
      rw [hl] at he
      exact seqList_ne_nil f hlt hne.hOff he

/-- Weakening: the consuming iterator does not need the HAS_NEXT-hint clause. -/
theorem Inv_weaken {T : Type} {s : SegQueue T} {l : List T} (h : Inv true s l) :
    Inv false s l := by
  rcases h with ⟨hs, hl⟩ | ⟨f, hne, hl⟩
  · exact Or.inl ⟨hs, hl⟩
  · refine Or.inr ⟨f, ?_, hl⟩
    exact ⟨hne.tailEven, hne.hOff, hne.tOff, hne.hLe,
      fun hc => absurd hc Bool.false_ne_true, hne.chain, hne.keysInc, hne.keysFresh,
      hne.headPtr, hne.tailPtr⟩

/-- One pop step preserves the invariant and pops the head of the list. -/
theorem Inv_pop_tail {T : Type} {s s' : SegQueue T} {l : List T} {r : Option T}
    (hinv : Inv true s l) (hp : s.pop = some (r, s')) : Inv true s' l.tail := by
  cases l with
  | nil =>
    have he := Inv_pop_nil hinv
    rw [he] at hp
    cases hp
    exact hinv
  | cons v l' =>
    obtain ⟨s2, hp2, h2⟩ := Inv_pop_cons hinv
    rw [hp2] at hp
    cases hp
    exact h2

/-- Every reachable state satisfies the abstraction invariant. -/
theorem Reach_Inv {T : Type} {s : SegQueue T} {l : List T} (h : Reach s l) :
    Inv true s l := by
  induction h with
  | new => exact Or.inl ⟨rfl, rfl⟩
  | push v _ ih => exact Inv_push v ih
  | pop _ hp ih => exact Inv_pop_tail ih hp

/-! ## Drop correctness -/

theorem dropLoop_ok {T : Type} {f : Nat → T} {Tl : Nat} :
    ∀ (n H : Nat) (bs : List (Nat × Block T)),
      chainOk f Tl bs (H / LAP) → H ≤ Tl → n = Tl - H →
      SegQueue.dropLoop bs (bs.map Prod.fst).head? (2 * H) n
        = some ((seqList f H Tl).map some, bs.map Prod.fst) := by
  intro n
  induction n with
  | zero =>
    intro H bs hch hle hn
    have hHT : H = Tl := by omega
    subst hHT
    cases bs with
    | nil => exact absurd hch (by simp [chainOk])
    | cons x rest =>
      obtain ⟨k, b⟩ := x
      cases rest with
      | nil =>
        simp only [List.map_cons, List.map_nil, List.head?_cons]
        unfold SegQueue.dropLoop
        simp [hfind_cons_self, seqList_nil]
      | cons y rest' =>
        have h1 := chainOk_le (chainOk_cons_rest hch (by simp))
        omega
  | succ m ih =>
    intro H bs hch hle hn
    have hHlt : H < Tl := by omega
    cases bs with
    | nil => exact absurd hch (by simp [chainOk])
    | cons x rest =>
    obtain ⟨k0, b0⟩ := x
    simp only [List.map_cons, List.head?_cons]
    have hoffe : ((2 * H) >>> SHIFT) % LAP = H % LAP := by
      simp only [shiftR1, LAP]
      omega
    have hstep : 2 * H + (1 <<< SHIFT) = 2 * (H + 1) := by
      rw [one_shl]
      ring
    by_cases hoff : H % LAP < BLOCK_CAP
    · -- a real slot: its destructor runs
      have hslots := chainOk_cons_slots hch
      have hoc : H % LAP < b0.slots.length := by
        rw [hslots.1]
        exact hoff
      have hslE : b0.slots[H % LAP]? = some (b0.slots.get ⟨H % LAP, hoc⟩) :=
        List.getElem?_eq_getElem hoc
      have hsok := hslots.2 _ _ hslE
      rw [Nat.div_add_mod H LAP] at hsok
      unfold slotOk at hsok
      rw [if_pos hHlt] at hsok
      simp only [List.get_eq_getElem] at hsok
      have hch' : chainOk f Tl ((k0, b0) :: rest) ((H + 1) / LAP) := by
        rw [show (H + 1) / LAP = H / LAP from by
          simp only [LAP, BLOCK_CAP] at hoff ⊢
          omega]
        exact hch
      have hih := ih (H + 1) ((k0, b0) :: rest) hch' (by omega) (by omega)
      simp only [List.map_cons, List.head?_cons] at hih
      unfold SegQueue.dropLoop
      simp only [hfind_cons_self, hoffe, hstep]
      rw [if_pos hoff, hih, seqList_cons f hHlt hoff]
      simp [hslE, hsok.2]
    · -- the boundary slot: the block is freed
      have hlt2 : H / LAP < Tl / LAP := by
        simp only [LAP, BLOCK_CAP] at hoff ⊢
        omega
      have hrne : rest ≠ [] := chainOk_rest_of_lt hch hlt2
      cases rest with
      | nil => exact absurd rfl hrne
      | cons y rest' =>
      obtain ⟨k1, b1⟩ := y
      have hnx : b0.next = some k1 := by
        have := chainOk_cons_next hch
        simpa using this
      have hch' : chainOk f Tl ((k1, b1) :: rest') ((H + 1) / LAP) := by
        rw [show (H + 1) / LAP = H / LAP + 1 from by
          simp only [LAP, BLOCK_CAP] at hoff ⊢
          omega]
        exact chainOk_cons_rest hch (by simp)
      have hih := ih (H + 1) ((k1, b1) :: rest') hch' (by omega) (by omega)
      simp only [List.map_cons, List.head?_cons] at hih
      unfold SegQueue.dropLoop
      simp only [hfind_cons_self, hoffe, hstep]
      rw [if_neg hoff, hremove_cons_self, hnx, hih]
      rw [seqList_cons_boundary f hHlt hoff]
      rfl

theorem Inv_drop {T : Type} {care : Bool} {s : SegQueue T} {l : List T}
    (h : Inv care s l) : s.drop = some (l.map some, s.blocks.map Prod.fst) := by
  rcases h with ⟨hs, hl⟩ | ⟨f, hne, hl⟩
  · subst hs
    subst hl
    show SegQueue.drop (SegQueue.new (T := T)) = some ([], [])
    unfold SegQueue.drop SegQueue.new
    show SegQueue.dropLoop [] none (2 * ((0 : Nat) / 2))
        (((2 * ((0 : Nat) / 2)) - 2 * ((0 : Nat) / 2)) >>> SHIFT) = some ([], [])
    rw [show (((2 * ((0 : Nat) / 2)) - 2 * ((0 : Nat) / 2)) >>> SHIFT) = 0 by decide]
    rfl
  · unfold SegQueue.drop
    show SegQueue.dropLoop s.blocks s.headBlock (2 * (s.headIndex / 2))
        (((2 * (s.tailIndex / 2)) - 2 * (s.headIndex / 2)) >>> SHIFT)
        = some (l.map some, s.blocks.map Prod.fst)
    have hmask : 2 * (s.headIndex / 2) = 2 * (s.headIndex >>> SHIFT) := by
      simp only [shiftR1]
    have hfuel : (((2 * (s.tailIndex / 2)) - 2 * (s.headIndex / 2)) >>> SHIFT)
        = (s.tailIndex >>> SHIFT) - (s.headIndex >>> SHIFT) := by
      simp only [shiftR1]
      omega
    rw [hfuel, hmask, hne.headPtr, hl]
    exact dropLoop_ok _ _ _ hne.chain hne.hLe rfl

/-! ## The consuming iterator -/

theorem iter_eq_empty {T : Type} (s : SegQueue T)
    (heq : s.headIndex >>> SHIFT = s.tailIndex >>> SHIFT) :
    IntoIter.next ⟨s⟩ = some (none, ⟨s⟩) := by
  unfold IntoIter.next
  rw [if_pos heq]

theorem iter_eq_mid {T : Type} (s : SegQueue T) {k0 : Nat} {b0 : Block T} {sl : Slot T} {v : T}
    (hhb : s.headBlock = some k0)
    (hfind0 : hfind s.blocks k0 = some b0)
    (hne : s.headIndex >>> SHIFT ≠ s.tailIndex >>> SHIFT)
    (hoff : ¬ ((s.headIndex >>> SHIFT) % LAP + 1 = BLOCK_CAP))
    (hsl : b0.slots[(s.headIndex >>> SHIFT) % LAP]? = some sl)
    (hvv : sl.value = some v) :
    IntoIter.next ⟨s⟩ = some (some v, ⟨{ s with headIndex := s.headIndex + (1 <<< SHIFT) }⟩) := by
  unfold IntoIter.next
  rw [if_neg hne]
  simp [hhb, hfind0, hsl, hvv, hoff]

theorem iter_eq_boundary {T : Type} (s : SegQueue T) {k0 : Nat} {b0 : Block T} {sl : Slot T} {v : T}
    (hhb : s.headBlock = some k0)
    (hfind0 : hfind s.blocks k0 = some b0)
    (hne : s.headIndex >>> SHIFT ≠ s.tailIndex >>> SHIFT)
    (hoff : (s.headIndex >>> SHIFT) % LAP + 1 = BLOCK_CAP)
    (hsl : b0.slots[(s.headIndex >>> SHIFT) % LAP]? = some sl)
    (hvv : sl.value = some v) :
    IntoIter.next ⟨s⟩ = some (some v,
      ⟨{ s with blocks := hremove s.blocks k0, headBlock := b0.next,
                headIndex := s.headIndex + (2 <<< SHIFT) }⟩) := by
  unfold IntoIter.next
  rw [if_neg hne]
  simp [hhb, hfind0, hsl, hvv, hoff]

theorem iter_next_nil {T : Type} {s : SegQueue T} (h : Inv false s []) :
    IntoIter.next ⟨s⟩ = some (none, ⟨s⟩) := by
  rcases h with ⟨hs, -⟩ | ⟨f, hne, hl⟩
  · subst hs
    exact iter_eq_empty _ rfl
  · refine iter_eq_empty _ ?_
    by_contra hne2
    have hlt : s.headIndex >>> SHIFT < s.tailIndex >>> SHIFT :=
      lt_of_le_of_ne hne.hLe hne2
    exact seqList_ne_nil f hlt hne.hOff hl.symm

theorem iter_next_cons {T : Type} {s : SegQueue T} {v : T} {l : List T}
    (h : Inv false s (v :: l)) :
    ∃ s', IntoIter.next ⟨s⟩ = some (some v, ⟨s'⟩) ∧ Inv false s' l := by
  rcases h with ⟨-, hl⟩ | ⟨f, hne, hl⟩
  · exact absurd hl (by simp)
  · obtain hbs := chainOk_ne_nil hne.chain
    cases hbss : s.blocks with
    | nil => exact absurd hbss hbs
    | cons x rest =>
    obtain ⟨k0, b0⟩ := x
    have hhb : s.headBlock = some k0 := by
      rw [hne.headPtr, hbss]
      rfl
    have hchain := hne.chain
    rw [hbss] at hchain
    have hslots := chainOk_cons_slots hchain
    have hH : s.headIndex >>> SHIFT < s.tailIndex >>> SHIFT := by
      rcases lt_or_eq_of_le hne.hLe with hlt | heq2
      · exact hlt
      · rw [← heq2, seqList_nil] at hl
        exact absurd hl (by simp)
    have hfind0 : hfind s.blocks k0 = some b0 := by
      rw [hbss]
      exact hfind_cons_self ..
    have hoc : (s.headIndex >>> SHIFT) % LAP < b0.slots.length := by
      rw [hslots.1]
      exact hne.hOff
    have hslE : b0.slots[(s.headIndex >>> SHIFT) % LAP]?
        = some (b0.slots.get ⟨(s.headIndex >>> SHIFT) % LAP, hoc⟩) :=
      List.getElem?_eq_getElem hoc
    have hsok := hslots.2 _ _ hslE
    rw [Nat.div_add_mod] at hsok
    unfold slotOk at hsok
    rw [if_pos hH] at hsok
    rw [seqList_cons f hH hne.hOff] at hl
    have hv : v = f (s.headIndex >>> SHIFT) := (List.cons.injEq .. ▸ hl).1
    have hltail : l = seqList f ((s.headIndex >>> SHIFT) + 1) (s.tailIndex >>> SHIFT) :=
      (List.cons.injEq .. ▸ hl).2
    have hvv : (b0.slots.get ⟨(s.headIndex >>> SHIFT) % LAP, hoc⟩).value = some v := by
      rw [hsok.2, hv]
    by_cases hoff : (s.headIndex >>> SHIFT) % LAP + 1 = BLOCK_CAP
    · -- last real slot of the block: free it, move on, skip the boundary slot
      have hlt2 : (s.headIndex >>> SHIFT) / LAP < (s.tailIndex >>> SHIFT) / LAP := by
        have h1 := hne.tOff
        simp only [LAP, BLOCK_CAP] at hoff h1 ⊢
        omega
      have hrne : rest ≠ [] := chainOk_rest_of_lt hchain hlt2
      cases rest with
      | nil => exact absurd rfl hrne
      | cons y rest' =>
      obtain ⟨k1, b1⟩ := y
      have hnx : b0.next = some k1 := by
        have := chainOk_cons_next hchain
        simpa using this
      have hit := iter_eq_boundary s hhb hfind0 (Nat.ne_of_lt hH) hoff hslE hvv
      rw [hnx] at hit
      refine ⟨_, hit, ?_⟩
      have hrchain : chainOk f (s.tailIndex >>> SHIFT) ((k1, b1) :: rest')
          ((s.headIndex >>> SHIFT) / LAP + 1) := chainOk_cons_rest hchain (by simp)
      have hrem : hremove s.blocks k0 = (k1, b1) :: rest' := by
        rw [hbss]
        exact hremove_cons_self ..
      have hT2 : (s.headIndex >>> SHIFT) + 2 ≤ s.tailIndex >>> SHIFT := by
        have h1 := hne.tOff
        simp only [LAP, BLOCK_CAP] at hoff h1 hlt2 ⊢
        omega
      have hIdx : (s.headIndex + (2 <<< SHIFT)) >>> SHIFT = (s.headIndex >>> SHIFT) + 2 := by
        simp only [shiftR1, two_shl]
        omega
      rw [hrem]
      right
      refine ⟨f, ?_, ?_⟩
      · refine InvNE.of_parts _ _ _ _ _ _ _ hne.tailEven ?_ hne.tOff ?_ ?_ ?_ ?_ ?_ (by simp) ?_
        · rw [hIdx]
          simp only [shiftR1, LAP, BLOCK_CAP] at hoff ⊢
          omega
        · rw [hIdx]
          omega
        · intro hc
          exact absurd hc Bool.false_ne_true
        · rw [hIdx]
          rw [show ((s.headIndex >>> SHIFT) + 2) / LAP = (s.headIndex >>> SHIFT) / LAP + 1 from by
            simp only [LAP, BLOCK_CAP] at hoff ⊢
            omega]
          exact hrchain
        · have hki := hne.keysInc
          rw [hbss] at hki
          simp only [List.map_cons] at hki ⊢
          exact hki.tail
        · intro kk hkk
          apply hne.keysFresh
          rw [hbss]
          simp only [List.map_cons] at hkk ⊢
          exact List.mem_cons_of_mem _ hkk
        · rw [hne.tailPtr, hbss]
          simp only [List.map_cons, List.getLast?_cons_cons]
      · rw [hIdx, hltail]
        exact seqList_cons_boundary f (by omega)
          (by simp only [LAP, BLOCK_CAP] at hoff ⊢; omega)
    · -- middle of the block
      have hit := iter_eq_mid s hhb hfind0 (Nat.ne_of_lt hH) hoff hslE hvv
      refine ⟨_, hit, ?_⟩
      have hIdx : (s.headIndex + (1 <<< SHIFT)) >>> SHIFT = (s.headIndex >>> SHIFT) + 1 := by
        simp only [shiftR1, one_shl]
        omega
      have hsame : ((s.headIndex >>> SHIFT) + 1) / LAP = (s.headIndex >>> SHIFT) / LAP := by
        have h1 := hne.hOff
        simp only [LAP, BLOCK_CAP] at hoff h1 ⊢
        omega
      right
      refine ⟨f, ?_, ?_⟩
      · refine InvNE.of_parts _ _ _ _ _ _ _ hne.tailEven ?_ hne.tOff ?_ ?_ ?_ hne.keysInc
          hne.keysFresh hne.headPtr hne.tailPtr
        · rw [hIdx]
          have h1 := hne.hOff
          simp only [LAP, BLOCK_CAP] at hoff h1 ⊢
          omega
        · rw [hIdx]
          omega
        · intro hc
          exact absurd hc Bool.false_ne_true
        · rw [hIdx, hsame]
          exact hne.chain
      · rw [hIdx]
        exact hltail

/-! ## Sequences of operations -/

/-- The first n results of draining a queue holding l: the values, then none. -/
def padded {T : Type} (l : List T) (n : Nat) : List (Option T) :=
  (l.map some).take n ++ List.replicate (n - l.length) none

theorem padded_zero {T : Type} (l : List T) : padded l 0 = [] := by
  simp [padded]

theorem padded_nil_succ {T : Type} (n : Nat) :
    padded ([] : List T) (n + 1) = none :: padded [] n := by
  simp [padded, List.replicate_succ]

theorem padded_cons_succ {T : Type} (v : T) (l : List T) (n : Nat) :
    padded (v :: l) (n + 1) = some v :: padded l n := by
  simp [padded, Nat.succ_sub_succ]

theorem popList_of_Inv {T : Type} {s : SegQueue T} {l : List T} (h : Inv true s l) :
    ∀ n, s.popList n = some (padded l n) := by
  intro n
  induction n generalizing s l with
  | zero => simp [SegQueue.popList, padded_zero]
  | succ m ih =>
    cases l with
    | nil =>
      rw [padded_nil_succ]
      simp [SegQueue.popList, Inv_pop_nil h, ih h]
    | cons v l' =>
      obtain ⟨s', hp, hinv⟩ := Inv_pop_cons h
      rw [padded_cons_succ]
      simp [SegQueue.popList, hp, ih hinv]

theorem nextList_of_Inv {T : Type} {s : SegQueue T} {l : List T} (h : Inv false s l) :
    ∀ n, IntoIter.nextList ⟨s⟩ n = some (padded l n) := by
  intro n
  induction n generalizing s l with
  | zero => simp [IntoIter.nextList, padded_zero]
  | succ m ih =>
    cases l with
    | nil =>
      rw [padded_nil_succ]
      simp [IntoIter.nextList, iter_next_nil h, ih h]
    | cons v l' =>
      obtain ⟨s', hp, hinv⟩ := iter_next_cons h
      rw [padded_cons_succ]
      simp [IntoIter.nextList, hp, ih hinv]

theorem popN_of_Inv {T : Type} {s : SegQueue T} {l : List T} (h : Inv true s l) :
    ∀ j, ∃ s', s.popN j = some s' ∧ Inv true s' (l.drop j) := by
  intro j
  induction j generalizing s l with
  | zero => exact ⟨s, rfl, h⟩
  | succ m ih =>
    cases l with
    | nil =>
      obtain ⟨s', hN, hinv⟩ := ih h
      exact ⟨s', by simp [SegQueue.popN, Inv_pop_nil h, hN], by simpa using hinv⟩
    | cons v l' =>
      obtain ⟨s2, hp, hinv2⟩ := Inv_pop_cons h
      obtain ⟨s', hN, hinv⟩ := ih hinv2
      exact ⟨s', by simp [SegQueue.popN, hp, hN], hinv⟩

theorem Inv_pushAll {T : Type} {care : Bool} :
    ∀ (vs : List T) {s : SegQueue T} {l : List T},
      Inv care s l → Inv care (s.pushAll vs) (l ++ vs) := by
  intro vs
  induction vs with
  | nil =>
    intro s l h
    simpa [SegQueue.pushAll] using h
  | cons v vs ih =>
    intro s l h
    have h2 := ih (Inv_push v h)
    rw [show (l ++ [v]) ++ vs = l ++ v :: vs by simp] at h2
    simpa [SegQueue.pushAll] using h2

theorem Reach_pushAll {T : Type} :
    ∀ (vs : List T) {s : SegQueue T} {l : List T},
      Reach s l → Reach (s.pushAll vs) (l ++ vs) := by
  intro vs
  induction vs with
  | nil =>
    intro s l h
    simpa [SegQueue.pushAll] using h
  | cons v vs ih =>
    intro s l h
    have h2 := ih (Reach.push v h)
    rw [show (l ++ [v]) ++ vs = l ++ v :: vs by simp] at h2
    simpa [SegQueue.pushAll] using h2

/-! ## Claim theorems for the queue -/

/-- C1.  Sequential FIFO correctness: pushing any sequence of n values (any n,
in particular the block-boundary sizes 31, 32, 62, 63, 64) and then popping
n + 1 times returns exactly those values in push order followed by None. -/
theorem fifo_ordering (T : Type) (vs : List T) :
    (SegQueue.new.pushAll vs).popList (vs.length + 1) = some (vs.map some ++ [none]) := by
  have hinv : Inv true ((SegQueue.new (T := T)).pushAll vs) vs := by
    have h0 : Inv true (SegQueue.new (T := T)) [] := Or.inl ⟨rfl, rfl⟩
    have := Inv_pushAll vs h0
    simpa using this
  rw [popList_of_Inv hinv]
  unfold padded
  rw [List.take_of_length_le (by simp)]
  simp [List.replicate_succ]

theorem pushEvents_eq_fill {T : Type} (s : SegQueue T) {k : Nat} (hk : s.tailBlock = some k)
    (hfl : (s.tailIndex >>> SHIFT) % LAP + 1 = BLOCK_CAP) :
    SegQueue.push.events s = [SegQueue.PushEvent.storeTailIndex (s.tailIndex + (1 <<< SHIFT)),
      SegQueue.PushEvent.setTailBlock s.fresh,
      SegQueue.PushEvent.storeTailIndex (s.tailIndex + (1 <<< SHIFT) + (1 <<< SHIFT)),
      SegQueue.PushEvent.storeNext k s.fresh,
      SegQueue.PushEvent.writeSlotValue k ((s.tailIndex >>> SHIFT) % LAP),
      SegQueue.PushEvent.setWriteBit k ((s.tailIndex >>> SHIFT) % LAP)] := by
  simp [SegQueue.push.events, hk, hfl]

/-- C2, counterexample.  The claim says a block-filling push stores the old
block's next link first and only then advances tail.block.  On the concrete
queue reached by 30 pushes (whose 31st push fills the first block), the push
event trace stores next after advancing tail.block, so no pair of positions
witnesses the claimed order. -/
theorem push_publication_order_cex :
    ¬ ∃ i j : Nat, i < j ∧
      (SegQueue.push.events (SegQueue.pushAll SegQueue.new (List.replicate 30 (0 : Nat))))[i]?
        = some (SegQueue.PushEvent.storeNext 0 1) ∧
      (SegQueue.push.events (SegQueue.pushAll SegQueue.new (List.replicate 30 (0 : Nat))))[j]?
        = some (SegQueue.PushEvent.setTailBlock 1) := by
  have hev : SegQueue.push.events (SegQueue.pushAll SegQueue.new (List.replicate 30 (0 : Nat)))
      = [SegQueue.PushEvent.storeTailIndex 62, SegQueue.PushEvent.setTailBlock 1, SegQueue.PushEvent.storeTailIndex 64,
         SegQueue.PushEvent.storeNext 0 1, SegQueue.PushEvent.writeSlotValue 0 30, SegQueue.PushEvent.setWriteBit 0 30] := by
    decide
  rintro ⟨i, j, hij, hi, hj⟩
  rw [hev] at hi hj
  have hi6 : i < 6 := by
    by_contra hge
    rw [List.getElem?_eq_none (by simpa using Nat.le_of_not_lt hge)] at hi
    exact absurd hi (by simp)
  have hj6 : j < 6 := by
    by_contra hge
    rw [List.getElem?_eq_none (by simpa using Nat.le_of_not_lt hge)] at hj
    exact absurd hj (by simp)
  interval_cases i <;> interval_cases j <;> simp_all

/-- C2, amended.  Successor-block publication order in push: when a push fills
the current block, the operation first advances tail.block to the pre-allocated
successor and then stores tail.index past the boundary slot (two laps beyond
the filled slot), and only after both sets the current block's next link to the
successor. -/
theorem push_publication_order {T : Type} (s : SegQueue T) (l : List T) (hr : Reach s l)
    (hfl : (s.tailIndex >>> SHIFT) % LAP + 1 = BLOCK_CAP) :
    ∃ k, s.tailBlock = some k ∧ ∃ i1 i2 j : Nat, i1 < i2 ∧ i2 < j ∧
      (SegQueue.push.events s)[i1]? = some (SegQueue.PushEvent.setTailBlock s.fresh) ∧
      (SegQueue.push.events s)[i2]? = some (SegQueue.PushEvent.storeTailIndex
          (s.tailIndex + (1 <<< SHIFT) + (1 <<< SHIFT))) ∧
      (SegQueue.push.events s)[j]? = some (SegQueue.PushEvent.storeNext k s.fresh) := by
  rcases Reach_Inv hr with ⟨hs, -⟩ | ⟨f, hne, -⟩
  · exfalso
    subst hs
    exact absurd hfl (show ¬ (((0 : Nat) >>> SHIFT) % LAP + 1 = BLOCK_CAP) by decide)
  · cases hkl : (s.blocks.map Prod.fst).getLast? with
    | none => exact absurd (List.getLast?_eq_none_iff.mp hkl) (keys_ne_nil hne)
    | some k =>
      have hk : s.tailBlock = some k := by rw [hne.tailPtr, hkl]
      refine ⟨k, hk, 1, 2, 3, by omega, by omega, ?_, ?_, ?_⟩
      · rw [pushEvents_eq_fill s hk hfl]
        rfl
      · rw [pushEvents_eq_fill s hk hfl]
        rfl
      · rw [pushEvents_eq_fill s hk hfl]
        rfl

/-- C2, witness: the amended order theorem applied to the concrete queue
reached by 30 pushes, whose next push fills the first block. -/
theorem push_publication_order_witness :
    (((SegQueue.pushAll SegQueue.new (List.replicate 30 (0 : Nat))).tailIndex >>> SHIFT) % LAP + 1
        = BLOCK_CAP)
    ∧ ∃ k, (SegQueue.pushAll SegQueue.new (List.replicate 30 (0 : Nat))).tailBlock = some k ∧
        ∃ i1 i2 j : Nat, i1 < i2 ∧ i2 < j ∧
          (SegQueue.push.events (SegQueue.pushAll SegQueue.new (List.replicate 30 (0 : Nat))))[i1]?
            = some (SegQueue.PushEvent.setTailBlock
                (SegQueue.pushAll SegQueue.new (List.replicate 30 (0 : Nat))).fresh) ∧
          (SegQueue.push.events (SegQueue.pushAll SegQueue.new (List.replicate 30 (0 : Nat))))[i2]?
            = some (SegQueue.PushEvent.storeTailIndex
                ((SegQueue.pushAll SegQueue.new (List.replicate 30 (0 : Nat))).tailIndex
                  + (1 <<< SHIFT) + (1 <<< SHIFT))) ∧
          (SegQueue.push.events (SegQueue.pushAll SegQueue.new (List.replicate 30 (0 : Nat))))[j]?
            = some (SegQueue.PushEvent.storeNext k
                (SegQueue.pushAll SegQueue.new (List.replicate 30 (0 : Nat))).fresh) :=
  ⟨by decide, push_publication_order _ _ (Reach_pushAll _ Reach.new) (by decide)⟩

/-- C3.  Boundary-slot safety: in every reachable state the tail offset used
by push and the head offset used by pop are strictly below BLOCK_CAP = 31, and
every live block has exactly BLOCK_CAP slots, so the unchecked slot indexing
is in bounds and the boundary position is never written or read. -/
theorem boundary_slot_safety (T : Type) (s : SegQueue T) (l : List T) (hr : Reach s l) :
    ((s.tailIndex >>> SHIFT) % LAP < BLOCK_CAP) ∧ ((s.headIndex >>> SHIFT) % LAP < BLOCK_CAP) ∧
      ∀ p b, hfind s.blocks p = some b → b.slots.length = BLOCK_CAP := by
  rcases Reach_Inv hr with ⟨hs, -⟩ | ⟨f, hne, -⟩
  · subst hs
    refine ⟨show ((0 : Nat) >>> SHIFT) % LAP < BLOCK_CAP by decide,
      show ((0 : Nat) >>> SHIFT) % LAP < BLOCK_CAP by decide, ?_⟩
    intro p b hb
    simp [hfind] at hb
  · exact ⟨hne.tOff, hne.hOff, chainOk_slots_len hne.chain⟩

/-- C3, witness: the safety bounds at the concrete reachable state after three
pushes. -/
theorem boundary_slot_safety_witness :
    (((SegQueue.pushAll SegQueue.new [1, 2, 3]).tailIndex >>> SHIFT) % LAP < BLOCK_CAP) ∧
    (((SegQueue.pushAll SegQueue.new [1, 2, 3]).headIndex >>> SHIFT) % LAP < BLOCK_CAP) :=
  ⟨(boundary_slot_safety Nat _ _ (Reach_pushAll _ Reach.new)).1,
   (boundary_slot_safety Nat _ _ (Reach_pushAll _ Reach.new)).2.1⟩

/-- C4.  Observational size correctness when quiescent: k pushes followed by
j ≤ k pops leave a queue whose len() is k - j, and is_empty() holds exactly
when k = j (so a fresh queue is empty with len 0, and after one push len is 1
and is_empty is false). -/
theorem len_is_empty_quiescent (T : Type) (vs : List T) (j : Nat) (hj : j ≤ vs.length) :
    ∃ s', (SegQueue.new.pushAll vs).popN j = some s' ∧
      s'.len = vs.length - j ∧ (s'.is_empty = true ↔ vs.length = j) := by
  have hinv : Inv true ((SegQueue.new (T := T)).pushAll vs) vs := by
    have h0 : Inv true (SegQueue.new (T := T)) [] := Or.inl ⟨rfl, rfl⟩
    have := Inv_pushAll vs h0
    simpa using this
  obtain ⟨s', hN, hinv'⟩ := popN_of_Inv hinv j
  refine ⟨s', hN, ?_, ?_⟩
  · rw [Inv_len hinv', List.length_drop]
  · rw [Inv_is_empty hinv', List.drop_eq_nil_iff]
    omega

/-- C4, witness: three pushes and two pops leave len 1 and a non-empty queue. -/
theorem len_is_empty_quiescent_witness :
    (2 ≤ [5, 6, 7].length) ∧
    ∃ s', (SegQueue.new.pushAll [5, 6, 7]).popN 2 = some s' ∧
      s'.len = [5, 6, 7].length - 2 ∧ (s'.is_empty = true ↔ [5, 6, 7].length = 2) :=
  ⟨by decide, len_is_empty_quiescent Nat [5, 6, 7] 2 (by decide)⟩

/-- C5.  Index-ordering invariant: in every reachable state the tail sequence
number is at least the head sequence number — the distance from head to tail
is non-negative.  Indices are modeled on unbounded naturals (they advance by
at most 4 per operation, so a 64-bit word cannot wrap in any feasible
execution), which makes the wrapping-safe comparison the plain one. -/
theorem index_ordering (T : Type) (s : SegQueue T) (l : List T) (hr : Reach s l) :
    s.headIndex >>> SHIFT ≤ s.tailIndex >>> SHIFT := by
  rcases Reach_Inv hr with ⟨hs, -⟩ | ⟨f, hne, -⟩
  · subst hs
    exact Nat.le_refl _
  · exact hne.hLe

/-- C5, witness: the index ordering at the concrete reachable state after two
pushes. -/
theorem index_ordering_witness :
    (SegQueue.pushAll SegQueue.new ([8, 9] : List Nat)).headIndex >>> SHIFT
      ≤ (SegQueue.pushAll SegQueue.new ([8, 9] : List Nat)).tailIndex >>> SHIFT :=
  index_ordering Nat _ _ (Reach_pushAll [8, 9] Reach.new)

/-- C6.  Drop correctness: dropping a reachable queue still holding the values
l runs the destructor of exactly those values, each once and in order, and
frees exactly the blocks the queue owns. -/
theorem drop_correctness (T : Type) (s : SegQueue T) (l : List T) (hr : Reach s l) :
    s.drop = some (l.map some, s.blocks.map Prod.fst) :=
  Inv_drop (Reach_Inv hr)

/-- C6, witness: dropping the concrete queue holding 0..34 (two blocks) runs
all 35 destructors in order and frees both blocks. -/
theorem drop_correctness_witness :
    (SegQueue.pushAll SegQueue.new (List.range 35)).drop
      = some ((List.range 35).map some,
          (SegQueue.pushAll SegQueue.new (List.range 35)).blocks.map Prod.fst) := by
  have h := drop_correctness Nat _ _ (Reach_pushAll (List.range 35) Reach.new)
  simpa using h

/-- C10.  Consuming-iterator equivalence: from every reachable queue state,
n calls of IntoIter::next yield exactly the same sequence of results as n
calls of pop. -/
theorem into_iter_pop_equiv (T : Type) (s : SegQueue T) (l : List T) (hr : Reach s l)
    (n : Nat) : IntoIter.nextList s.into_iter n = s.popList n := by
  have h := Reach_Inv hr
  show IntoIter.nextList ⟨s⟩ n = s.popList n
  rw [nextList_of_Inv (Inv_weaken h) n, popList_of_Inv h n]

/-- C10, witness: the equivalence at the concrete reachable state holding
0..39, drained for 45 steps. -/
theorem into_iter_pop_equiv_witness :
    IntoIter.nextList (SegQueue.pushAll SegQueue.new (List.range 40)).into_iter 45
      = (SegQueue.pushAll SegQueue.new (List.range 40)).popList 45 :=
  into_iter_pop_equiv Nat _ _ (Reach_pushAll (List.range 40) Reach.new) 45

end SpscSegQueue

/-!
## UnixListenerAccept (src/io/sys/unix/net/unix_listener_accept.rs)

Sequential model of the accept driver.  The environment (kernel and reactor)
is an oracle: each loop iteration of done() receives the outcome of the
cancellation check (co_io_result), the outcome of the accept syscall, the
outcome of wrapping the accepted socket (CoIo::new), and whether the reactor
set the readiness flag during the syscall window.  The io_flag of the IoData
readiness cell is threaded explicitly; it is cleared before the syscall and
swap-cleared after a would-block result, exactly as in the source.
-/

namespace UnixAccept

/-- An io::Error, identified by its raw OS error code when it has one. -/
structure IoError where
  rawOsError : Option Int
deriving DecidableEq

/-- libc::EAGAIN on Linux. -/
def EAGAIN : Int := 11

/-- libc::EWOULDBLOCK on Linux (the same code as EAGAIN). -/
def EWOULDBLOCK : Int := 11

/-- The would-block test of done() (source line 43):
raw_err == Some(EAGAIN) || raw_err == Some(EWOULDBLOCK). -/
def isWouldBlock (e : IoError) : Bool :=
  e.rawOsError == some EAGAIN || e.rawOsError == some EWOULDBLOCK

/-- The environment's answers for one iteration of the done() loop. -/
structure IterInput (St Ad Cs : Type) where
  /-- Outcome of co_io_result (line 30): some e when the coroutine was
  cancelled and an error was stored into its frame. -/
  cancelErr : Option IoError
  /-- Outcome of socket.accept() (line 35). -/
  accept : Except IoError (St × Ad)
  /-- Outcome of CoIo::new on the accepted socket (line 37). -/
  coIoNew : Except IoError Cs
  /-- Whether the reactor set io_flag between the clear and the swap. -/
  signalDuringSyscall : Bool

/-- The observable actions of one iteration of done(), in order. -/
inductive Event where
  | checkCancel
  | clearFlag
  | callAccept
  | swapFlag (old : Bool)
  | yieldWithIo
deriving DecidableEq

instance {E A : Type} [DecidableEq E] [DecidableEq A] : DecidableEq (Except E A) := fun x y =>
  match x, y with
  | Except.ok a, Except.ok b =>
    if h : a = b then isTrue (by rw [h]) else isFalse (by intro hc; cases hc; exact h rfl)
  | Except.error a, Except.error b =>
    if h : a = b then isTrue (by rw [h]) else isFalse (by intro hc; cases hc; exact h rfl)
  | Except.ok _, Except.error _ => isFalse (by intro hc; cases hc)
  | Except.error _, Except.ok _ => isFalse (by intro hc; cases hc)

/-- What one iteration of the done() loop decides. -/
inductive IterOutcome (E A : Type) where
  | ret (r : Except E A)
  | retry
  | park
deriving DecidableEq

/-- One iteration of the loop of UnixListenerAccept::done (source lines
29-57), as a function of the current io_flag and the environment's answers.
Returns the event trace of the iteration, the io_flag afterwards, and the
decision: return a result, retry immediately, or park via yield_with_io. -/
def doneStep {St Ad Cs : Type} (flag : Bool) (inp : IterInput St Ad Cs) :
    List Event × Bool × IterOutcome IoError (Cs × Ad) :=
  match inp.cancelErr with
  | some e => ([Event.checkCancel], flag, IterOutcome.ret (Except.error e))
  | none =>
    -- line 33: clear the io_flag before the syscall; the reactor may set it
    -- again during the syscall window
    let flag1 := inp.signalDuringSyscall
    match inp.accept with
    | Except.ok sa =>
      match inp.coIoNew with
      | Except.ok cs =>
        ([Event.checkCancel, Event.clearFlag, Event.callAccept], flag1,
          IterOutcome.ret (Except.ok (cs, sa.2)))
      | Except.error e =>
        ([Event.checkCancel, Event.clearFlag, Event.callAccept], flag1,
          IterOutcome.ret (Except.error e))
    | Except.error e =>
      if isWouldBlock e then
        -- line 51: swap-clear the io_flag; retry when it was set
        if flag1 then
          ([Event.checkCancel, Event.clearFlag, Event.callAccept, Event.swapFlag true],
            false, IterOutcome.retry)
        else
          ([Event.checkCancel, Event.clearFlag, Event.callAccept, Event.swapFlag false,
            Event.yieldWithIo], false, IterOutcome.park)
      else
        ([Event.checkCancel, Event.clearFlag, Event.callAccept], flag1,
          IterOutcome.ret (Except.error e))

/-- The readiness cell (IoData): the edge flag and the parked-coroutine slot. -/
structure IoData (Co : Type) where
  co : Option Co
  io_flag : Bool
deriving DecidableEq

/-- The observable actions of subscribe, in order. -/
inductive SubEvent where
  | storeCo
  | loadFlag (v : Bool)
  | schedule
  | setCancelIo
  | cancelFire
deriving DecidableEq

/-- EventSource::subscribe for UnixListenerAccept (source lines 62-85):
release-store the coroutine handle into the cell, acquire-load the readiness
flag and, when it is set, schedule the coroutine at once and return; otherwise,
with the io_cancel feature enabled, bind the cancel token and fire the
cancellation when the token is already cancelled. -/
def subscribe {Co : Type} (cell : IoData Co) (co : Co)
    (cancelEnabled canceled : Bool) : IoData Co × List SubEvent :=
  let cell1 := { cell with co := some co }
  if cell1.io_flag then
    (cell1, [SubEvent.storeCo, SubEvent.loadFlag true, SubEvent.schedule])
  else if cancelEnabled then
    if canceled then
      (cell1, [SubEvent.storeCo, SubEvent.loadFlag false, SubEvent.setCancelIo,
        SubEvent.cancelFire])
    else
      (cell1, [SubEvent.storeCo, SubEvent.loadFlag false, SubEvent.setCancelIo])
  else
    (cell1, [SubEvent.storeCo, SubEvent.loadFlag false])

/-! ## Claim theorems for the accept driver -/

/-- C7 as the claim states it: an iteration of done() returns an error
verbatim if and only if the accept call failed with a non-would-block OS error
or the cancellation check failed. -/
def errorPolicyStated : Prop :=
  ∀ (St Ad Cs : Type) (flag : Bool) (inp : IterInput St Ad Cs) (e : IoError),
    (doneStep flag inp).2.2 = IterOutcome.ret (Except.error e)
      ↔ (inp.cancelErr = some e
         ∨ (inp.cancelErr = none ∧ inp.accept = Except.error e ∧ isWouldBlock e = false))

/-- C7, counterexample.  When accept succeeds but wrapping the accepted socket
(CoIo::new, line 37) fails, done() returns that error even though the accept
call did not fail: the stated iff is false at this input. -/
theorem accept_error_policy_cex : ¬ errorPolicyStated := by
  intro h
  have h2 := (h Unit Unit Unit false
    ⟨none, Except.ok ((), ()), Except.error ⟨some 5⟩, false⟩ ⟨some 5⟩).mp (by decide)
  exact absurd h2 (by decide)

/-- C7, amended.  Error policy of one iteration of done(): an error e is
returned verbatim exactly when the cancellation check fails with e, or accept
fails with e and e is not would-block, or accept succeeds and wrapping the
accepted socket (CoIo::new) fails with e; and the iteration retries or parks
exactly when the cancellation check passes and accept fails with would-block,
so a would-block result never escapes as an error. -/
theorem accept_error_policy {St Ad Cs : Type} (flag : Bool) (inp : IterInput St Ad Cs)
    (e : IoError) :
    ((doneStep flag inp).2.2 = IterOutcome.ret (Except.error e)
      ↔ (inp.cancelErr = some e
         ∨ (inp.cancelErr = none ∧ inp.accept = Except.error e ∧ isWouldBlock e = false)
         ∨ (inp.cancelErr = none ∧ (∃ sa, inp.accept = Except.ok sa)
             ∧ inp.coIoNew = Except.error e)))
    ∧ (((doneStep flag inp).2.2 = IterOutcome.retry ∨ (doneStep flag inp).2.2 = IterOutcome.park)
      ↔ inp.cancelErr = none ∧ ∃ e2, inp.accept = Except.error e2 ∧ isWouldBlock e2 = true) := by
  obtain ⟨ce, ac, cn, sg⟩ := inp
  cases ce with
  | some e0 => simp [doneStep]
  | none =>
    cases ac with
    | ok sa =>
      cases cn with
      | ok cs => simp [doneStep]
      | error e0 => simp [doneStep]
    | error e0 =>
      cases hwb : isWouldBlock e0 with
      | true =>
        cases sg <;>
          simp [doneStep, hwb] <;>
          (intro he; subst he; simp [hwb])
      | false =>
        simp [doneStep, hwb]
        rintro rfl
        exact hwb

/-- C7, witness: the amended policy applied at a concrete input where accept
fails with a hard OS error, which is returned verbatim. -/
theorem accept_error_policy_witness :
    (doneStep false (⟨none, Except.error ⟨some 99⟩, Except.ok (), false⟩ :
        IterInput Unit Unit Unit)).2.2
      = IterOutcome.ret (Except.error ⟨some 99⟩) :=
  (accept_error_policy false _ _).1.mpr (by decide)

/-- C8 as the claim states it, final clause: on accept success the stream and
peer address are returned (without suspending). -/
def successReturnStated : Prop :=
  ∀ (St Ad Cs : Type) (flag : Bool) (inp : IterInput St Ad Cs) (st : St) (ad : Ad),
    inp.cancelErr = none → inp.accept = Except.ok (st, ad) →
      ∃ cs, (doneStep flag inp).2.2 = IterOutcome.ret (Except.ok (cs, ad))

/-- C8, counterexample.  When accept succeeds but CoIo::new fails, done()
returns the wrapping error instead of the stream and peer address, refuting
the stated success clause at this concrete input. -/
theorem accept_park_protocol_cex : ¬ successReturnStated := by
  intro h
  obtain ⟨cs, hcs⟩ := h Unit Unit Unit false
    ⟨none, Except.ok ((), ()), Except.error ⟨some 5⟩, false⟩ () () rfl rfl
  cases cs
  exact absurd hcs (by decide)

/-- C8, amended.  Edge-triggered park protocol of one iteration of done():
the readiness flag is cleared before accept is invoked (the trace begins
checkCancel, clearFlag, callAccept, unless cancellation returns first); after
a would-block result the flag is swap-cleared and the iteration retries
immediately exactly when the swapped flag was set, parks exactly when it was
clear, and yield_with_io is reached exactly when it parks; on accept success
the iteration returns without suspending — the stream and peer address when
the CoIo wrapping succeeds, otherwise the wrapping error. -/
theorem accept_park_protocol {St Ad Cs : Type} (flag : Bool) (inp : IterInput St Ad Cs) :
    ((doneStep flag inp).1.take 3 = [Event.checkCancel, Event.clearFlag, Event.callAccept]
       ∨ (doneStep flag inp).1 = [Event.checkCancel])
    ∧ ((doneStep flag inp).2.2 = IterOutcome.retry
        ↔ inp.cancelErr = none ∧ inp.signalDuringSyscall = true
          ∧ ∃ e, inp.accept = Except.error e ∧ isWouldBlock e = true)
    ∧ ((doneStep flag inp).2.2 = IterOutcome.park
        ↔ inp.cancelErr = none ∧ inp.signalDuringSyscall = false
          ∧ ∃ e, inp.accept = Except.error e ∧ isWouldBlock e = true)
    ∧ (Event.yieldWithIo ∈ (doneStep flag inp).1 ↔ (doneStep flag inp).2.2 = IterOutcome.park)
    ∧ ((doneStep flag inp).2.2 = IterOutcome.retry →
        Event.swapFlag true ∈ (doneStep flag inp).1)
    ∧ ((doneStep flag inp).2.2 = IterOutcome.park →
        Event.swapFlag false ∈ (doneStep flag inp).1)
    ∧ (∀ st ad, inp.cancelErr = none → inp.accept = Except.ok (st, ad) →
        (∃ cs, inp.coIoNew = Except.ok cs ∧
            (doneStep flag inp).2.2 = IterOutcome.ret (Except.ok (cs, ad)))
        ∨ (∃ e, inp.coIoNew = Except.error e ∧
            (doneStep flag inp).2.2 = IterOutcome.ret (Except.error e))) := by
  obtain ⟨ce, ac, cn, sg⟩ := inp
  cases ce with
  | some e0 => simp [doneStep]
  | none =>
    cases ac with
    | ok sa =>
      obtain ⟨st0, ad0⟩ := sa
      cases cn with
      | ok cs => simp [doneStep]
      | error e0 => simp [doneStep]
    | error e0 =>
      cases hwb : isWouldBlock e0 with
      | true => cases sg <;> simp [doneStep, hwb]
      | false => simp [doneStep, hwb]

/-- C8, witness: at a concrete would-block input with no readiness signal, the
iteration parks, and yield_with_io appears in its trace exactly then. -/
theorem accept_park_protocol_witness :
    Event.yieldWithIo ∈ (doneStep false (⟨none, Except.error ⟨some 11⟩, Except.ok (), false⟩ :
        IterInput Unit Unit Unit)).1
      ↔ (doneStep false (⟨none, Except.error ⟨some 11⟩, Except.ok (), false⟩ :
        IterInput Unit Unit Unit)).2.2 = IterOutcome.park :=
  (accept_park_protocol false _).2.2.2.1

/-- C9.  subscribe installs then re-checks: the trace first stores the
coroutine handle into the readiness cell, then loads the readiness flag, and
schedules the coroutine immediately (right after the load) exactly when the
loaded flag was set; the handle ends up installed in the cell. -/
theorem subscribe_install_recheck {Co : Type} (cell : IoData Co) (co : Co)
    (ce ca : Bool) :
    ((subscribe cell co ce ca).2)[0]? = some SubEvent.storeCo
    ∧ ((subscribe cell co ce ca).2)[1]? = some (SubEvent.loadFlag cell.io_flag)
    ∧ (SubEvent.schedule ∈ (subscribe cell co ce ca).2 ↔ cell.io_flag = true)
    ∧ (((subscribe cell co ce ca).2)[2]? = some SubEvent.schedule ↔ cell.io_flag = true)
    ∧ (subscribe cell co ce ca).1.co = some co := by
  obtain ⟨c0, fl⟩ := cell
  cases fl <;> cases ce <;> cases ca <;> simp [subscribe]

/-- C9, witness: the install-then-recheck facts at a concrete cell whose flag
is already set, so the coroutine is rescheduled immediately. -/
theorem subscribe_install_recheck_witness :
    SubEvent.schedule ∈ (subscribe (⟨none, true⟩ : IoData Unit) () false false).2
      ↔ (⟨none, true⟩ : IoData Unit).io_flag = true :=
  (subscribe_install_recheck ⟨none, true⟩ () false false).2.2.1

end UnixAccept
